import Mathlib

/-!
SwiftMPI worker engine: logistic regression and word2vec.

A shallow embedding of `src/apps/logistic/lr.cpp` and `src/apps/word2vec/w2v.cpp`.

* `float`/`double` values are idealised as elements of a field `R`; the C library
  functions `exp`, `sqrt` and `pow(., 0.75)` are parameters (`expf`, `sqrtf`, `powf`),
  so every definition is executable over `ℚ` and the theorems can be read over `ℝ`
  with the real functions.
* The push updates divide by a square root. Their field-arithmetic definitions are the
  float computation where the root is taken of a positive number; the `_ieee` definitions
  carry the domain of the two operations (`none` for NaN or an infinity).
* Keys (`size_t`, `unsigned int`) are natural numbers, counters (`int`) are integers.
* A text line is the list of the hashes of its tokens (`split` and `hash_fn` are
  library code); a file is the list of its remaining lines.
* Handlers are modelled for one task (`nthreads = 1`).
-/

namespace SwiftMPI

/-- Modelled from the spec: the dense vector `Vec` of swiftmpi.h (not among the sources),
a fixed-length array of floats whose arithmetic is elementwise. -/
abbrev Vec (R : Type) (n : Nat) := Fin n → R

/-- Modelled from the spec: `Vec::dot`, the inner product of two dense vectors. -/
def Vec.dot {R : Type} [Semiring R] {n : Nat} (a b : Vec R n) : R :=
  ∑ i : Fin n, a i * b i

/-- Modelled from the spec: `LocalParamCache` of swiftmpi.h (not among the sources), the
per-key storage of the pulled value (`params()`) and of the gradient accumulator
(`grads()`), as the kernels see it on the keys that have an entry: both are read and written
by key. An access to a key without an entry (a programming error, which fails fast) is not
modelled; the word2vec kernel logs the keys it accesses, so that accesses outside the
ActiveKeySet can be stated. -/
structure LocalParamCache (K P G : Type) where
  params : K → P
  grads : K → G

/-- The constant `fudge_factor = 1e-6` of both push access methods. -/
def fudge_factor {R : Type} [Field R] : R := 1 / 1000000

/-- The float expression `a / sqrt(x)` with the domain of its two operations: `sqrt` of a
negative number is NaN, and a quotient by zero is NaN or infinite. `none` stands for a
result that is not a finite number. -/
def div_sqrt {R : Type} [LinearOrderedField R] (sqrtf : R → R) (a x : R) : Option R :=
  if x < 0 then none else if sqrtf x = 0 then none else some (a / sqrtf x)

/-! ## lr.cpp -/

namespace Lr

/-- Keys of the linear model, `typedef unsigned int key_t`. -/
abbrev key_t := Nat

/-- Server-side parameter `LRParam`. -/
structure LRParam (R : Type) where
  val : R
  grad2sum : R

/-- Worker-side cached value `LRLocalParam`. -/
structure LRLocalParam (R : Type) where
  val : R

/-- Worker-side gradient accumulator `LRLocalGrad`. -/
structure LRLocalGrad (R : Type) where
  val : R
  count : Int

/-- Body of `LRPushAccessMethod::apply_push_value` (lr.cpp 41-44), in field arithmetic:
it is the float computation wherever `sqrt` is taken of a non-negative number and is not
zero (see `LRPushAccessMethod.apply_push_value_ieee`). -/
def LRPushAccessMethod.apply_push_value {R : Type} [Field R] (sqrtf : R → R)
    (initial_learning_rate : R) (param : LRParam R) (push_val : LRLocalGrad R) : LRParam R :=
  let grad2sum := param.grad2sum + push_val.val * push_val.val
  { grad2sum := grad2sum
    val := param.val + initial_learning_rate * push_val.val / sqrtf (grad2sum + fudge_factor) }

/-- Body of `LRPushAccessMethod::apply_push_value` (lr.cpp 41-44) with the domain of the
float operations: a field of the result is `none` when the code leaves NaN or an infinity
in it. -/
def LRPushAccessMethod.apply_push_value_ieee {R : Type} [LinearOrderedField R]
    (sqrtf : R → R) (initial_learning_rate : R) (param : LRParam R)
    (push_val : LRLocalGrad R) : LRParam (Option R) :=
  let grad2sum := param.grad2sum + push_val.val * push_val.val
  { grad2sum := some grad2sum
    val := (div_sqrt sqrtf (initial_learning_rate * push_val.val)
      (grad2sum + fudge_factor)).map (fun t => param.val + t) }

/-- The struct `Instance` of lr.cpp: a target and (key, weight) pairs. -/
structure Instance (R : Type) where
  target : R
  feas : List (key_t × R)

/-- The cache type of the linear model. -/
abbrev param_cache_t (R : Type) := LocalParamCache key_t (LRLocalParam R) (LRLocalGrad R)

/-- One iteration of the second loop of `LR::learn_instance` (lr.cpp 192-196). -/
def LR.accumulate {R : Type} [Field R] (error : R) (cache : param_cache_t R)
    (item : key_t × R) : param_cache_t R :=
  let grad := error * item.2
  let g := cache.grads item.1
  let g1 : LRLocalGrad R := { val := g.val + grad, count := g.count }
  let g2 : LRLocalGrad R := { val := g1.val, count := g1.count + 1 }
  { params := cache.params, grads := Function.update cache.grads item.1 g2 }

/-- The function `LR::learn_instance` (lr.cpp 182-198): returns the squared error and the
cache after the gradient accumulation. -/
def LR.learn_instance {R : Type} [Field R] (expf : R → R) (cache : param_cache_t R)
    (ins : Instance R) : R × param_cache_t R :=
  let sum := ins.feas.foldl (fun s item => s + (cache.params item.1).val * item.2) 0
  let predict := 1 / (1 + expf (-sum))
  let error := ins.target - predict
  (error * error, ins.feas.foldl (LR.accumulate error) cache)

/-- A line of the training file of the linear model as `parse_instance` reads it: the
target and the keys that follow it. -/
structure Line (R : Type) where
  target : R
  keys : List key_t

/-- The function `parse_instance` (lr.cpp 65-76): sets the target and appends one pair per
key. The weight stored is the local `value`, which the function never assigns; it is a
parameter here. -/
def parse_instance {R : Type} (value : R) (line : Line R) (ins : Instance R) : Instance R :=
  { target := line.target
    feas := line.keys.foldl (fun feas key => feas ++ [(key, value)]) ins.feas }

/-- The compute handler of `LR::train` (lr.cpp 114-125) run by one task over the remaining
lines: `ins` is declared before the loop and never cleared, `line_count` is incremented
before and after `learn_instance`. Returns the cache, `line_count` and the lines left
unread (the loop is left when no line remains). -/
def LR.train_handler {R : Type} [Field R] (expf : R → R) (value : R) (_minibatch : Int) :
    List (Line R) → Instance R → param_cache_t R × Int →
      (param_cache_t R × Int) × List (Line R)
  | [], _, st => (st, [])
  | line :: rest, ins, (cache, line_count) =>
      let ins1 := parse_instance value line ins
      let line_count1 := line_count + 1
      let res := LR.learn_instance expf cache ins1
      let line_count2 := line_count1 + 1
      if line_count2 > _minibatch then ((res.2, line_count2), rest)
      else LR.train_handler expf value _minibatch rest ins1 (res.2, line_count2)

/-- Insertion into the `std::set` `_local_keys` of the linear model (ascending, no
duplicates). -/
def set_insert (item : key_t) : List key_t → List key_t
  | [] => [item]
  | k :: rest =>
      if item = k then k :: rest
      else if item < k then item :: k :: rest
      else k :: set_insert item rest

/-- The handler of `LR::gather_keys` (lr.cpp 159-173) run by one task over the remaining
lines; `line` and `ins` are not declared in the lambda and are taken as locals of the task,
as in the handler of `train`. The statement `lk(SpinLock)` of line 165 takes no lock, which
changes nothing for one task. Returns `_local_keys`, `line_count` and the lines left
unread. -/
def LR.gather_handler {R : Type} (value : R) (minibatch : Int) :
    List (Line R) → Instance R → List key_t × Int → (List key_t × Int) × List (Line R)
  | [], _, st => (st, [])
  | line :: rest, ins, (local_keys, line_count) =>
      let ins1 := parse_instance value line ins
      let local_keys1 := ins1.feas.foldl (fun s item => set_insert item.1 s) local_keys
      let line_count1 := line_count + 1
      if minibatch > 0 ∧ line_count1 > minibatch then ((local_keys1, line_count1), rest)
      else LR.gather_handler value minibatch rest ins1 (local_keys1, line_count1)

/-- The method `LR::gather_keys` (lr.cpp 147-178) for one task: `_local_keys` is cleared and
the handler runs with `line_count = 0`. -/
def LR.gather_keys {R : Type} (value : R) (file : List (Line R)) (ins : Instance R)
    (minibatch : Int) : (List key_t × Int) × List (Line R) :=
  LR.gather_handler value minibatch file ins ([], 0)

/-- The keys that the handler of `LR::gather_keys` inserts, in order, for the value of
`line_count` it starts with: the loop of `LR.gather_handler` with the inserted keys in
place of the set. -/
def LR.gather_inserted {R : Type} (value : R) (minibatch : Int) :
    List (Line R) → Instance R → Int → List key_t
  | [], _, _ => []
  | line :: rest, ins, line_count =>
      let ins1 := parse_instance value line ins
      let line_count1 := line_count + 1
      if minibatch > 0 ∧ line_count1 > minibatch then ins1.feas.map Prod.fst
      else ins1.feas.map Prod.fst ++ LR.gather_inserted value minibatch rest ins1 line_count1

end Lr

/-! ## w2v.cpp -/

namespace W2v

/-- Word keys, `typedef size_t w2v_key_t`. -/
abbrev w2v_key_t := Nat

/-- The macro `MAX_EXP`. -/
def MAX_EXP : Nat := 6

/-- The macro `EXP_TABLE_SIZE`. -/
def EXP_TABLE_SIZE : Nat := 1000

/-- Server-side parameter `WParam`. -/
structure WParam (R : Type) (n : Nat) where
  h : Vec R n
  v : Vec R n
  h2sum : Vec R n
  v2sum : Vec R n

/-- Worker-side cached value `WLocalParam`. -/
structure WLocalParam (R : Type) (n : Nat) where
  h : Vec R n
  v : Vec R n

/-- Worker-side gradient accumulator `WLocalGrad`. -/
structure WLocalGrad (R : Type) (n : Nat) where
  h_grad : Vec R n
  v_grad : Vec R n
  h_count : Int
  v_count : Int

/-- The method `WLocalGrad::accu_h`. -/
def WLocalGrad.accu_h {R : Type} [Field R] {n : Nat} (g : WLocalGrad R n) (grad : Vec R n) :
    WLocalGrad R n :=
  { h_grad := g.h_grad + grad, v_grad := g.v_grad, h_count := g.h_count + 1,
    v_count := g.v_count }

/-- The method `WLocalGrad::accu_v`. -/
def WLocalGrad.accu_v {R : Type} [Field R] {n : Nat} (g : WLocalGrad R n) (grad : Vec R n) :
    WLocalGrad R n :=
  { h_grad := g.h_grad, v_grad := g.v_grad + grad, h_count := g.h_count,
    v_count := g.v_count + 1 }

/-- The in-place averaging at the head of `operator<< (BinaryBuffer&, WLocalGrad&)`
(w2v.cpp 93-94). -/
def WLocalGrad.average {R : Type} [Field R] {n : Nat} (grad : WLocalGrad R n) : WLocalGrad R n :=
  let h_grad : Vec R n :=
    if grad.h_count > 0 then fun i => grad.h_grad i / (grad.h_count : R) else grad.h_grad
  let v_grad : Vec R n :=
    if grad.v_count > 0 then fun i => grad.v_grad i / (grad.v_count : R) else grad.v_grad
  { h_grad := h_grad, v_grad := v_grad, h_count := grad.h_count, v_count := grad.v_count }

/-- The function `operator<< (BinaryBuffer&, WLocalGrad&)` (w2v.cpp 91-100); the buffer is
the list of the floats written so far. Returns the buffer and the (modified) gradient. -/
def write_WLocalGrad {R : Type} [Field R] {n : Nat} (bb : List R) (grad : WLocalGrad R n) :
    List R × WLocalGrad R n :=
  let grad1 := grad.average
  ((List.finRange n).foldl (fun b i => (b ++ [grad1.h_grad i]) ++ [grad1.v_grad i]) bb, grad1)

/-- Body of `WPushAccessMethod::apply_push_value` (w2v.cpp 141-148), in field arithmetic:
it is the float computation wherever `sqrt` is taken of a non-negative number and is not
zero (see `WPushAccessMethod.apply_push_value_ieee`). -/
def WPushAccessMethod.apply_push_value {R : Type} [Field R] {n : Nat} (sqrtf : R → R)
    (initial_learning_rate : R) (param : WParam R n) (push_val : WLocalGrad R n) : WParam R n :=
  let h2sum1 : Vec R n := fun i => param.h2sum i + push_val.h_grad i * push_val.h_grad i
  let v2sum1 : Vec R n := fun i => param.v2sum i + push_val.v_grad i * push_val.v_grad i
  let h2sum2 : Vec R n := fun i =>
    h2sum1 i + initial_learning_rate * push_val.h_grad i / sqrtf (h2sum1 i + fudge_factor)
  let v2sum2 : Vec R n := fun i =>
    v2sum1 i + initial_learning_rate * push_val.v_grad i / sqrtf (v2sum1 i + fudge_factor)
  { h := param.h, v := param.v, h2sum := h2sum2, v2sum := v2sum2 }

/-- Body of `WPushAccessMethod::apply_push_value` (w2v.cpp 141-148) with the domain of the
float operations: a component of the result is `none` when the code leaves NaN or an
infinity in it. -/
def WPushAccessMethod.apply_push_value_ieee {R : Type} [LinearOrderedField R] {n : Nat}
    (sqrtf : R → R) (initial_learning_rate : R) (param : WParam R n)
    (push_val : WLocalGrad R n) : WParam (Option R) n :=
  let h2sum1 : Vec R n := fun i => param.h2sum i + push_val.h_grad i * push_val.h_grad i
  let v2sum1 : Vec R n := fun i => param.v2sum i + push_val.v_grad i * push_val.v_grad i
  let h2sum2 : Vec (Option R) n := fun i =>
    (div_sqrt sqrtf (initial_learning_rate * push_val.h_grad i)
      (h2sum1 i + fudge_factor)).map (fun t => h2sum1 i + t)
  let v2sum2 : Vec (Option R) n := fun i =>
    (div_sqrt sqrtf (initial_learning_rate * push_val.v_grad i)
      (v2sum1 i + fudge_factor)).map (fun t => v2sum1 i + t)
  { h := fun i => some (param.h i), v := fun i => some (param.v i),
    h2sum := h2sum2, v2sum := v2sum2 }

/-- The struct `Instance` of w2v.cpp: the hashed words of the lines parsed into it. -/
structure Instance where
  words : List w2v_key_t
deriving DecidableEq, Repr

/-- Conversion of an `int` to `size_t`, as the comparison in `parse_instance` does. -/
def to_size_t (x : Int) : Nat := (x % 2 ^ 64).toNat

/-- The function `parse_instance` (w2v.cpp 172-182): appends the hashed words of the line
to the instance and reports whether the instance has at least `min_length` words. -/
def parse_instance (min_length : Int) (line : List w2v_key_t) (ins : Instance) :
    Bool × Instance :=
  let ins1 : Instance := { words := line.foldl (fun ws word => ws ++ [word]) ins.words }
  (decide (to_size_t min_length ≤ ins1.words.length), ins1)

/-- The index computed by `ExpTable::operator()`: the C conversion to `int` of
`(f + MAX_EXP) * (EXP_TABLE_SIZE / MAX_EXP / 2)`, the factor being an integer quotient. -/
def ExpTable.index {R : Type} [LinearOrderedField R] [FloorRing R] (f : R) : Int :=
  let x : R := (f + (MAX_EXP : R)) * ((EXP_TABLE_SIZE / MAX_EXP / 2 : Nat) : R)
  if 0 ≤ x then ⌊x⌋ else ⌈x⌉

/-- The method `ExpTable::operator()` over the array `_table` filled by the constructor. -/
def ExpTable.call {R : Type} [LinearOrderedField R] [FloorRing R] (_table : Nat → R) (f : R) : R :=
  _table (ExpTable.index f).toNat

/-- The constructor `ExpTable::ExpTable` (w2v.cpp 198-209): of the `EXP_TABLE_SIZE + 1`
entries allocated, the entries `0 .. EXP_TABLE_SIZE - 1` are filled; an entry that was not
written is `none`. -/
def ExpTable.new {R : Type} [Field R] (expf : R → R) : Nat → Option R :=
  (List.range EXP_TABLE_SIZE).foldl (fun (table : Nat → Option R) (i : Nat) =>
    let e : R := expf (((i : R) / (EXP_TABLE_SIZE : R) * 2 - 1) * (MAX_EXP : R))
    Function.update table i (some (e / (e + 1)))) (fun _ => none)

/-- The fields of `MiniBatch` that the key gatherer and the table builder use; `_table` is
the list of the slots written (empty before the first build). -/
structure MiniBatch where
  _local_keys : List w2v_key_t
  _word_freq : List (w2v_key_t × Int)
  _wordids : List w2v_key_t
  _table : List w2v_key_t
deriving DecidableEq, Repr

/-- Insertion into the `std::unordered_set` `_local_keys`. -/
def set_insert (item : w2v_key_t) (s : List w2v_key_t) : List w2v_key_t :=
  if item ∈ s then s else s ++ [item]

/-- The block of w2v.cpp 309-313 on the sorted `std::map` `_word_freq`: increment the
count of `item` when it is found, insert it with count 1 otherwise. -/
def count_word (item : w2v_key_t) : List (w2v_key_t × Int) → List (w2v_key_t × Int)
  | [] => [(item, 1)]
  | (k, c) :: rest =>
      if item = k then (k, c + 1) :: rest
      else if item < k then (item, 1) :: (k, c) :: rest
      else (k, c) :: count_word item rest

/-- The value that `_word_freq[key]` reads: the stored count, 0 for a key that is absent. -/
def map_read (key : w2v_key_t) : List (w2v_key_t × Int) → Int
  | [] => 0
  | (k, c) :: rest => if key = k then c else map_read key rest

/-- The map after `_word_freq[key]`: `operator[]` inserts an absent key with count 0. -/
def map_touch (key : w2v_key_t) : List (w2v_key_t × Int) → List (w2v_key_t × Int)
  | [] => [(key, 0)]
  | (k, c) :: rest =>
      if key = k then (k, c) :: rest
      else if key < k then (key, 0) :: (k, c) :: rest
      else (k, c) :: map_touch key rest

/-- The loop over `ins.words` in the gatherer (w2v.cpp 304-315). -/
def gather_words (words : List w2v_key_t) (mb : MiniBatch) : MiniBatch :=
  words.foldl (fun m item =>
    { m with _local_keys := set_insert item m._local_keys,
             _word_freq := count_word item m._word_freq }) mb

/-- The handler of `MiniBatch::gather_keys` (w2v.cpp 294-319) run by one task over the
remaining lines of the file; the state is the minibatch and `line_count`. -/
def gather_handler (min_length minibatch : Int) :
    List (List w2v_key_t) → MiniBatch × Int → MiniBatch × Int
  | [], st => st
  | line :: rest, (mb, line_count) =>
      let parsed := parse_instance min_length line { words := [] }
      if parsed.1 = false then gather_handler min_length minibatch rest (mb, line_count)
      else
        let mb1 := gather_words parsed.2.words mb
        let line_count1 := line_count + 1
        if minibatch > 0 ∧ line_count1 > minibatch then (mb1, line_count1)
        else gather_handler min_length minibatch rest (mb1, line_count1)

/-- The method `MiniBatch::gather_keys` (w2v.cpp 279-325): the number of keys collected and
the minibatch afterwards. -/
def MiniBatch.gather_keys (min_length : Int) (mb : MiniBatch) (file : List (List w2v_key_t))
    (minibatch : Int) : Nat × MiniBatch :=
  let mb1 : MiniBatch := { mb with _local_keys := [] }
  let st := gather_handler min_length minibatch file (mb1, 0)
  (st.1._local_keys.length, st.1)

/-- The method `MiniBatch::clear`. -/
def MiniBatch.clear (mb : MiniBatch) : MiniBatch :=
  { mb with _local_keys := [], _word_freq := [], _wordids := [] }

/-- The loop state of `gen_unigram_table`: the slots written, `i`, `d1` and `_word_freq`. -/
structure UnigramState (R : Type) where
  table : List w2v_key_t
  i : Nat
  d1 : R
  word_freq : List (w2v_key_t × Int)

/-- One iteration of the loop of `gen_unigram_table` (w2v.cpp 361-368); `none` when
`_wordids` is read outside its bounds. -/
def unigram_step {R : Type} [LinearOrderedField R] (powf : Int → R) (table_size : Nat)
    (train_words_pow : R) (wordids : List w2v_key_t) (st : UnigramState R) (a : Nat) :
    Option (UnigramState R) :=
  match wordids[st.i]? with
  | none => none
  | some w =>
    let table1 := st.table ++ [w]
    if (a : R) / (table_size : R) > st.d1 then
      let i1 := st.i + 1
      match wordids[i1]? with
      | none => none
      | some w1 =>
        let d1 := st.d1 + powf (map_read w1 st.word_freq) / train_words_pow
        let word_freq1 := map_touch w1 st.word_freq
        let i2 := if word_freq1.length ≤ i1 then word_freq1.length - 1 else i1
        some { table := table1, i := i2, d1 := d1, word_freq := word_freq1 }
    else
      let i2 := if st.word_freq.length ≤ st.i then st.word_freq.length - 1 else st.i
      some { table := table1, i := i2, d1 := st.d1, word_freq := st.word_freq }

/-- The loop `for (a = 0; a < table_size; a++)` of `gen_unigram_table`. -/
def unigram_loop {R : Type} [LinearOrderedField R] (powf : Int → R) (table_size : Nat)
    (train_words_pow : R) (wordids : List w2v_key_t) :
    List Nat → UnigramState R → Option (UnigramState R)
  | [], st => some st
  | a :: rest, st =>
      match unigram_step powf table_size train_words_pow wordids st a with
      | none => none
      | some st1 => unigram_loop powf table_size train_words_pow wordids rest st1

/-- The sum `train_words_pow` (w2v.cpp 356-358). -/
def train_words_pow {R : Type} [LinearOrderedField R] (powf : Int → R)
    (word_freq : List (w2v_key_t × Int)) : R :=
  word_freq.foldl (fun acc item => acc + powf item.2) 0

/-- The method `MiniBatch::gen_unigram_table` (w2v.cpp 344-369) with the table size as a
parameter; `none` when a `CHECK` fails or `_wordids` is read outside its bounds. -/
def MiniBatch.gen_unigram_table {R : Type} [LinearOrderedField R] (powf : Int → R)
    (table_size : Nat) (mb : MiniBatch) : Option MiniBatch :=
  if mb._word_freq.length = 0 then none
  else
    let wordids := mb._wordids ++ mb._word_freq.map Prod.fst
    let twp : R := train_words_pow powf mb._word_freq
    match wordids[0]? with
    | none => none
    | some w0 =>
      let st0 : UnigramState R :=
        { table := [], i := 0, d1 := powf (map_read w0 mb._word_freq) / twp,
          word_freq := map_touch w0 mb._word_freq }
      match unigram_loop powf table_size twp wordids (List.range table_size) st0 with
      | none => none
      | some st =>
        some { _local_keys := mb._local_keys, _word_freq := st.word_freq, _wordids := wordids,
               _table := st.table }

/-- The loop state of `gen_unigram_table` before iteration `a` (after the iterations
`0 .. a-1`), `none` as for `gen_unigram_table`. -/
def unigram_state_at {R : Type} [LinearOrderedField R] (powf : Int → R)
    (table_size : Nat) (mb : MiniBatch) (a : Nat) : Option (UnigramState R) :=
  if mb._word_freq.length = 0 then none
  else
    let wordids := mb._wordids ++ mb._word_freq.map Prod.fst
    let twp : R := train_words_pow powf mb._word_freq
    match wordids[0]? with
    | none => none
    | some w0 =>
      let st0 : UnigramState R :=
        { table := [], i := 0, d1 := powf (map_read w0 mb._word_freq) / twp,
          word_freq := map_touch w0 mb._word_freq }
      unigram_loop powf table_size twp wordids (List.range a) st0

/-- Auxiliary (proofs only): the weight `pow(freq, 0.75)` accumulated over the first
`j + 1` entries of the FrequencyTable. -/
def cum_weight {R : Type} [LinearOrderedField R] (powf : Int → R)
    (word_freq : List (w2v_key_t × Int)) (j : Nat) : R :=
  ((word_freq.take (j + 1)).map (fun p => powf p.2)).sum

/-- Auxiliary (proofs only): the value of `d1 * table_size` while the loop is at word `j`,
the table position up to which the words `0 .. j` have their share. -/
def threshold {R : Type} [LinearOrderedField R] (powf : Int → R) (table_size : Nat)
    (word_freq : List (w2v_key_t × Int)) (j : Nat) : R :=
  (table_size : R) * (cum_weight powf word_freq j / train_words_pow powf word_freq)

/-- Auxiliary (proofs only): slot `a` is one of the slots that the loop fills with word `j`:
`a - 1` is at most the threshold of `j` and above the threshold of `j - 1`. -/
def slot_of {R : Type} [LinearOrderedField R] (powf : Int → R) (table_size : Nat)
    (word_freq : List (w2v_key_t × Int)) (j a : Nat) : Prop :=
  (a : R) ≤ threshold powf table_size word_freq j + 1 ∧
    (j = 0 ∨ threshold powf table_size word_freq (j - 1) + 1 < (a : R))

/-- Auxiliary (proofs only): deciding `slot_of` by comparisons in the ordered field. -/
instance slot_of_decidable {R : Type} [LinearOrderedField R] (powf : Int → R) (table_size : Nat)
    (word_freq : List (w2v_key_t × Int)) (j a : Nat) :
    Decidable (slot_of powf table_size word_freq j a) := by
  unfold slot_of
  infer_instance

/-- Auxiliary (proofs only): the FrequencyTable is a non-empty `std::map` (keys ascending)
with positive weights in which every share `pow(freq, 0.75) / train_words_pow` is at least
`1 / table_size`, for a positive table size. -/
structure UnigramInput {R : Type} [LinearOrderedField R] (powf : Int → R) (table_size : Nat)
    (word_freq : List (w2v_key_t × Int)) : Prop where
  sorted : (word_freq.map Prod.fst).Pairwise (fun x y => x < y)
  nonempty : word_freq ≠ []
  weight_pos : ∀ p ∈ word_freq, 0 < powf p.2
  table_pos : 0 < table_size
  share : ∀ p ∈ word_freq,
    1 ≤ (table_size : R) * (powf p.2 / train_words_pow powf word_freq)

/-- Auxiliary (proofs only): the loop invariant of `gen_unigram_table` before slot `a` is
written: the map is unchanged, `i` is a valid word index whose cumulative share is `d1`,
slot `a` belongs to word `i`, and each word holds exactly its slots among `0 .. a-1`. -/
structure UnigramInv {R : Type} [LinearOrderedField R] (powf : Int → R) (table_size : Nat)
    (word_freq : List (w2v_key_t × Int)) (a : Nat) (st : UnigramState R) : Prop where
  word_freq_eq : st.word_freq = word_freq
  i_lt : st.i < word_freq.length
  d1_eq : st.d1 = cum_weight powf word_freq st.i / train_words_pow powf word_freq
  slot : slot_of powf table_size word_freq st.i a
  counts : ∀ j p, word_freq[j]? = some p →
    st.table.count p.1
      = ((Finset.range a).filter (fun x => slot_of powf table_size word_freq j x)).card
  length_eq : st.table.length = a

/-- Auxiliary (proofs only): the part of the loop invariant of `gen_unigram_table` that
needs no condition on the shares: the map is unchanged, `i` is a valid word index whose
cumulative share is `d1`, and the slots written hold keys of the map in ascending order,
none above the key of word `i`. -/
structure UnigramBounds {R : Type} [LinearOrderedField R] (powf : Int → R)
    (word_freq : List (w2v_key_t × Int)) (st : UnigramState R) : Prop where
  word_freq_eq : st.word_freq = word_freq
  i_lt : st.i < word_freq.length
  d1_eq : st.d1 = cum_weight powf word_freq st.i / train_words_pow powf word_freq
  mem_keys : ∀ x ∈ st.table, x ∈ word_freq.map Prod.fst
  ascending : st.table.Pairwise (fun x y => x ≤ y)
  le_current : ∀ p, word_freq[st.i]? = some p → ∀ x ∈ st.table, x ≤ p.1

/-- The struct `Error`. -/
structure Error (R : Type) where
  data : R
  counter : Nat

/-- The method `Error::accu`. -/
def Error.accu {R : Type} [Field R] (e : Error R) (x : R) : Error R :=
  { data := e.data + x, counter := e.counter + 1 }

/-- The configuration fields of `Word2Vec` and the collaborators the kernel reads: the
pulled parameters (`_minibatch.param().params()`), the unigram table (`_minibatch.table()`)
with its size, the sigmoid table of `exptable` and the stream of values returned by
`global_random()()`. -/
structure Word2Vec (R : Type) (n : Nat) where
  _batchsize : Int
  _window : Nat
  _negative : Nat
  _alpha : R
  min_sentence_length : Int
  table_size : Nat
  params : w2v_key_t → WLocalParam R n
  table : List w2v_key_t
  exptable : Nat → R
  global_random : Nat → Nat

/-- What `learn_instance` reads and writes: the vectors `neu1` and `neu1e`, the gradient
side of the cache, `_error`, the number of random values drawn so far, and the log of the
keys whose `params()` or `grads()` entry was accessed (latest first). -/
structure KernelState (R : Type) (n : Nat) where
  neu1 : Vec R n
  neu1e : Vec R n
  grads : w2v_key_t → WLocalGrad R n
  error : Error R
  rng : Nat
  touched : List w2v_key_t

/-- The values of `a` in `for (a = b; a < _window * 2 + 1 - b; a++)`. -/
def window_range (window b : Nat) : List Nat :=
  List.range' b (window * 2 + 1 - b - b)

/-- The position `c = pos - _window + a` of the context word, when the loop body is not
skipped (`a != _window`, `0 <= c < sent_length`). -/
def context_index (window sent_length pos a : Nat) : Option Nat :=
  if a = window then none
  else
    let c : Int := (pos : Int) - (window : Int) + (a : Int)
    if c < 0 ∨ c ≥ (sent_length : Int) then none else some c.toNat

/-- The first inner loop of `learn_instance` (w2v.cpp 492-500): adds the `v` vectors of the
context words to `neu1`. -/
def context_loop {R : Type} [LinearOrderedField R] {n : Nat} (w : Word2Vec R n) (b : Nat)
    (ins : Instance) (pos : Nat) (st : KernelState R n) : KernelState R n :=
  (window_range w._window b).foldl (fun s a =>
    match context_index w._window ins.words.length pos a with
    | none => s
    | some c =>
      let last_word := ins.words.getD c 0
      { s with neu1 := s.neu1 + (w.params last_word).v, touched := last_word :: s.touched }) st

/-- Lines 513-521 of w2v.cpp: score `target` against `neu1` and accumulate. -/
def score_target {R : Type} [LinearOrderedField R] [FloorRing R] {n : Nat} (w : Word2Vec R n)
    (target : w2v_key_t) (label : R) (st : KernelState R n) : KernelState R n :=
  let syn1neg_target := (w.params target).h
  let f : R := 0 + Vec.dot st.neu1 syn1neg_target
  let g : R :=
    if f > (MAX_EXP : R) then (label - 1) * w._alpha
    else if f < -(MAX_EXP : R) then (label - 0) * w._alpha
    else (label - ExpTable.call w.exptable f) * w._alpha
  { neu1 := st.neu1
    neu1e := st.neu1e + g • syn1neg_target
    grads := Function.update st.grads target ((st.grads target).accu_h (g • st.neu1))
    error := st.error.accu (10000 * g * g)
    rng := st.rng
    touched := target :: st.touched }

/-- Lines 507-509 of w2v.cpp: read a negative sample from the unigram table at a random
slot, once more when the sample is the key 0; returns the sample and the state with the
random values consumed. -/
def sample_negative {R : Type} {n : Nat} (w : Word2Vec R n) (st : KernelState R n) :
    w2v_key_t × KernelState R n :=
  let target := w.table.getD ((w.global_random st.rng >>> 16) % w.table_size) 0
  if target = 0 then
    (w.table.getD ((w.global_random (st.rng + 1) >>> 16) % w.table_size) 0,
      { st with rng := st.rng + 2 })
  else (target, { st with rng := st.rng + 1 })

/-- One iteration of the loop over `d` (w2v.cpp 501-522): the true target for `d = 0`, a
negative sample read from the unigram table otherwise (skipped when it is the centre
word). -/
def target_step {R : Type} [LinearOrderedField R] [FloorRing R] {n : Nat} (w : Word2Vec R n)
    (word : w2v_key_t) (st : KernelState R n) (d : Nat) : KernelState R n :=
  if d = 0 then score_target w word 1 st
  else
    let s := sample_negative w st
    if s.1 = word then s.2 else score_target w s.1 0 s.2

/-- The third inner loop of `learn_instance` (w2v.cpp 524-532): adds `neu1e` to the `v`
gradient of every context word. -/
def backprop_loop {R : Type} [LinearOrderedField R] {n : Nat} (w : Word2Vec R n) (b : Nat)
    (ins : Instance) (pos : Nat) (st : KernelState R n) : KernelState R n :=
  (window_range w._window b).foldl (fun s a =>
    match context_index w._window ins.words.length pos a with
    | none => s
    | some c =>
      let last_word := ins.words.getD c 0
      { s with grads := Function.update s.grads last_word ((s.grads last_word).accu_v s.neu1e),
               touched := last_word :: s.touched }) st

/-- The body of the loop over `pos` in `learn_instance` (w2v.cpp 491-532). -/
def position_step {R : Type} [LinearOrderedField R] [FloorRing R] {n : Nat} (w : Word2Vec R n)
    (b : Nat) (ins : Instance) (st : KernelState R n) (pos : Nat) : KernelState R n :=
  let word := ins.words.getD pos 0
  let st1 := context_loop w b ins pos st
  let st2 := (List.range (w._negative + 1)).foldl (target_step w word) st1
  backprop_loop w b ins pos st2

/-- The state of `learn_instance` after the centre positions `0 .. k-1`, for shrink `b`. -/
def learn_positions {R : Type} [LinearOrderedField R] [FloorRing R] {n : Nat} (w : Word2Vec R n)
    (b : Nat) (ins : Instance) (k : Nat) (st : KernelState R n) : KernelState R n :=
  (List.range k).foldl (position_step w b ins) st

/-- The shrink `b = global_random()() % _window` drawn at the head of `learn_instance`. -/
def shrink {R : Type} {n : Nat} (w : Word2Vec R n) (st : KernelState R n) : Nat :=
  w.global_random st.rng % w._window

/-- The state in which the loop over `pos` starts: `neu1` and `neu1e` cleared, one random
value consumed. -/
def learn_start {R : Type} [Field R] {n : Nat} (st : KernelState R n) : KernelState R n :=
  { st with neu1 := 0, neu1e := 0, rng := st.rng + 1 }

/-- The method `Word2Vec::learn_instance` (w2v.cpp 482-534). -/
def Word2Vec.learn_instance {R : Type} [LinearOrderedField R] [FloorRing R] {n : Nat}
    (w : Word2Vec R n) (ins : Instance) (st : KernelState R n) : KernelState R n :=
  learn_positions w (shrink w st) ins ins.words.length (learn_start st)

/-- The vector `neu1` with which `learn_instance` scores the targets of centre position
`pos`: its value after the first inner loop of that position. -/
def Word2Vec.neu1_at {R : Type} [LinearOrderedField R] [FloorRing R] {n : Nat}
    (w : Word2Vec R n) (ins : Instance) (st : KernelState R n) (pos : Nat) : Vec R n :=
  (context_loop w (shrink w st) ins pos
    (learn_positions w (shrink w st) ins pos (learn_start st))).neu1

/-- The handler of `Word2Vec::train_iter` (w2v.cpp 453-467) run by one task over the
remaining lines: `ins` is declared outside the loop and `parse_instance` appends to it;
`neu1` and `neu1e` are fresh vectors for every line. The state carries `line_count`. -/
def train_handler {R : Type} [LinearOrderedField R] [FloorRing R] {n : Nat} (w : Word2Vec R n) :
    List (List w2v_key_t) → Instance → KernelState R n × Int → KernelState R n × Int
  | [], _, st => st
  | line :: rest, ins, (st, line_count) =>
      let parsed := parse_instance w.min_sentence_length line ins
      let st1 := w.learn_instance parsed.2 { st with neu1 := 0, neu1e := 0 }
      let line_count1 := line_count + 1
      if line_count1 > w._batchsize then (st1, line_count1)
      else train_handler w rest parsed.2 (st1, line_count1)

/-- A kernel state with cleared vectors, zero gradients and no random value drawn. -/
def KernelState.fresh (R : Type) [Field R] (n : Nat) : KernelState R n :=
  { neu1 := 0, neu1e := 0,
    grads := fun _ => { h_grad := 0, v_grad := 0, h_count := 0, v_count := 0 },
    error := { data := 0, counter := 0 }, rng := 0, touched := [] }

/-- A small configuration over `ℚ` with one-dimensional vectors, used for concrete runs:
window 1, no negative samples, key `k` cached as `h = v = (k)`. -/
def sample_w2v : Word2Vec ℚ 1 :=
  { _batchsize := 2, _window := 1, _negative := 0, _alpha := 1 / 10,
    min_sentence_length := 2, table_size := 4,
    params := fun k => { h := fun _ => (k : ℚ), v := fun _ => (k : ℚ) },
    table := [1, 1, 1, 1], exptable := fun _ => 1 / 2, global_random := fun _ => 0 }

end W2v

/-! ## Theorems -/

open Lr W2v

/-! ### The linear kernel -/

/-- A left fold that adds `f item` to an accumulator is the sum of the mapped list. -/
theorem foldl_add_eq_sum {R : Type} [Field R] {A : Type} (f : A → R) (l : List A) (a : R) :
    l.foldl (fun s item => s + f item) a = a + (l.map f).sum := by
  induction l generalizing a with
  | nil => simp
  | cons x xs ih => simp [ih, add_assoc]

/-- The accumulation loop of `LR::learn_instance` never writes the parameter side. -/
theorem lr_accumulate_params {R : Type} [Field R] (error : R) (l : List (key_t × R))
    (cache : param_cache_t R) :
    (l.foldl (LR.accumulate error) cache).params = cache.params := by
  induction l generalizing cache with
  | nil => rfl
  | cons x xs ih => simp [List.foldl_cons, ih, LR.accumulate]

/-- The gradient of key `k` after the accumulation loop of `LR::learn_instance`. -/
theorem lr_accumulate_grads {R : Type} [Field R] (error : R) (l : List (key_t × R))
    (cache : param_cache_t R) (k : key_t) :
    ((l.foldl (LR.accumulate error) cache).grads k).val
        = (cache.grads k).val + error * ((l.filter (fun p => p.1 = k)).map Prod.snd).sum ∧
    ((l.foldl (LR.accumulate error) cache).grads k).count
        = (cache.grads k).count + ((l.filter (fun p => p.1 = k)).length : Int) := by
  induction l generalizing cache with
  | nil => simp
  | cons x xs ih =>
    rw [List.foldl_cons]
    obtain ⟨h1, h2⟩ := ih (LR.accumulate error cache x)
    rw [h1, h2]
    by_cases hk : x.1 = k
    · subst hk
      simp [LR.accumulate, List.filter_cons, mul_add, add_assoc]
      exact add_comm _ _
    · have hk2 : k ≠ x.1 := fun h => hk h.symm
      simp [LR.accumulate, List.filter_cons, hk, Function.update_noteq hk2]

/-- C3. Linear kernel: `LR::learn_instance` returns `error ^ 2` with
`error = target - sigmoid (sum of weight * cached value)`; for every key `k` it adds
`error * (sum of the weights of the pairs with key k)` to `grads[k].val` and the number of
those pairs to `grads[k].count`, with the one error computed before the accumulation; the
cached values are unchanged and so are the gradients of keys not in the instance. -/
theorem lr_learn_instance_spec {R : Type} [Field R] (expf : R → R) (cache : param_cache_t R)
    (ins : Instance R) :
    let error := ins.target
      - 1 / (1 + expf (-(ins.feas.map (fun p => p.2 * (cache.params p.1).val)).sum))
    let res := LR.learn_instance expf cache ins
    res.1 = error ^ 2 ∧
    (∀ k, (res.2.grads k).val
        = (cache.grads k).val + error * ((ins.feas.filter (fun p => p.1 = k)).map Prod.snd).sum) ∧
    (∀ k, (res.2.grads k).count
        = (cache.grads k).count + ((ins.feas.filter (fun p => p.1 = k)).length : Int)) ∧
    res.2.params = cache.params ∧
    (∀ k, (∀ p ∈ ins.feas, p.1 ≠ k) → res.2.grads k = cache.grads k) := by
  intro error res
  have hsum : ins.feas.foldl (fun s item => s + (cache.params item.1).val * item.2) 0
      = (ins.feas.map (fun p => p.2 * (cache.params p.1).val)).sum := by
    rw [foldl_add_eq_sum (fun item : key_t × R => (cache.params item.1).val * item.2),
      zero_add]
    congr 1
    apply List.map_congr_left
    intro p _
    exact mul_comm _ _
  have herr : ins.target - 1 / (1 + expf (-(ins.feas.foldl
      (fun s item => s + (cache.params item.1).val * item.2) 0))) = error := by
    rw [hsum]
  have hres : res = (error * error, ins.feas.foldl (LR.accumulate error) cache) := by
    simp only [res, LR.learn_instance, herr]
  rw [hres]
  refine ⟨(sq error).symm, fun k => (lr_accumulate_grads error ins.feas cache k).1,
    fun k => (lr_accumulate_grads error ins.feas cache k).2,
    lr_accumulate_params error ins.feas cache, ?_⟩
  intro k hk
  have hfil : ins.feas.filter (fun p => p.1 = k) = [] := by
    rw [List.filter_eq_nil_iff]
    intro p hp
    simpa using hk p hp
  obtain ⟨h1, h2⟩ := lr_accumulate_grads error ins.feas cache k
  rw [hfil] at h1 h2
  simp only [List.map_nil, List.sum_nil, mul_zero, add_zero, List.length_nil,
    Nat.cast_zero] at h1 h2
  cases hg : (ins.feas.foldl (LR.accumulate error) cache).grads k with
  | mk v c =>
    cases hc : cache.grads k with
    | mk v0 c0 =>
      rw [hg, hc] at h1 h2
      simp only at h1 h2
      rw [h1, h2]

/-! ### The push side -/

/-- Over the reals `a / sqrt x` is a finite number when `0 < x`. -/
theorem div_sqrt_of_pos (a x : ℝ) (hx : 0 < x) :
    div_sqrt Real.sqrt a x = some (a / Real.sqrt x) := by
  unfold div_sqrt
  rw [if_neg (not_lt.mpr hx.le), if_neg (Real.sqrt_pos.mpr hx).ne.symm]

/-- Over the reals `a / sqrt x` is not a finite number when `x ≤ 0`: the square root is
taken of a negative number, or the quotient is by zero. -/
theorem div_sqrt_of_nonpos (a x : ℝ) (hx : x ≤ 0) : div_sqrt Real.sqrt a x = none := by
  unfold div_sqrt
  by_cases h : x < 0
  · rw [if_pos h]
  · rw [if_neg h, if_pos (Real.sqrt_eq_zero'.mpr hx)]

/-- Where the square roots are taken of positive numbers, the embedding push in float
arithmetic is the push in field arithmetic. -/
theorem w_apply_push_value_ieee_eq {n : Nat} (initial_learning_rate : ℝ) (param : WParam ℝ n)
    (push_val : WLocalGrad ℝ n) (i : Fin n) :
    (0 < param.h2sum i + push_val.h_grad i * push_val.h_grad i + fudge_factor →
      (WPushAccessMethod.apply_push_value_ieee Real.sqrt initial_learning_rate param
          push_val).h2sum i
        = some ((WPushAccessMethod.apply_push_value Real.sqrt initial_learning_rate param
            push_val).h2sum i)) ∧
    (0 < param.v2sum i + push_val.v_grad i * push_val.v_grad i + fudge_factor →
      (WPushAccessMethod.apply_push_value_ieee Real.sqrt initial_learning_rate param
          push_val).v2sum i
        = some ((WPushAccessMethod.apply_push_value Real.sqrt initial_learning_rate param
            push_val).v2sum i)) := by
  constructor
  · intro hpos
    simp only [WPushAccessMethod.apply_push_value_ieee, WPushAccessMethod.apply_push_value]
    rw [div_sqrt_of_pos _ _ hpos]
    rfl
  · intro hpos
    simp only [WPushAccessMethod.apply_push_value_ieee, WPushAccessMethod.apply_push_value]
    rw [div_sqrt_of_pos _ _ hpos]
    rfl

/-- Where the square root is taken of a positive number, the linear push in float
arithmetic is the push in field arithmetic. -/
theorem lr_apply_push_value_ieee_eq (initial_learning_rate : ℝ) (param : LRParam ℝ)
    (push_val : LRLocalGrad ℝ)
    (hpos : 0 < param.grad2sum + push_val.val * push_val.val + fudge_factor) :
    LRPushAccessMethod.apply_push_value_ieee Real.sqrt initial_learning_rate param push_val
      = { val := some (LRPushAccessMethod.apply_push_value Real.sqrt initial_learning_rate
            param push_val).val
          grad2sum := some (LRPushAccessMethod.apply_push_value Real.sqrt
            initial_learning_rate param push_val).grad2sum } := by
  simp only [LRPushAccessMethod.apply_push_value_ieee, LRPushAccessMethod.apply_push_value]
  rw [div_sqrt_of_pos _ _ hpos]
  rfl

/-- The embedding accumulator after the push of `-1/1000` on a fresh parameter with learning
rate `1/10` is below `-1/25`. -/
theorem w_push_fresh_h2sum_le :
    (WPushAccessMethod.apply_push_value Real.sqrt (1 / 10)
        ({ h := 0, v := 0, h2sum := 0, v2sum := 0 } : WParam ℝ 1)
        { h_grad := fun _ => -1 / 1000, v_grad := fun _ => -1 / 1000,
          h_count := 1, v_count := 1 }).h2sum 0 ≤ -(1 / 25) := by
  simp only [WPushAccessMethod.apply_push_value, fudge_factor, Pi.zero_apply]
  have hpos : (0:ℝ) < 0 + -1 / 1000 * (-1 / 1000) + 1 / 1000000 := by norm_num
  have hs : Real.sqrt (0 + -1 / 1000 * (-1 / 1000) + 1 / 1000000) ≤ 2 / 1000 := by
    rw [Real.sqrt_le_left (by norm_num)]
    norm_num
  have hs0 : 0 < Real.sqrt (0 + -1 / 1000 * (-1 / 1000) + 1 / 1000000) :=
    Real.sqrt_pos.mpr hpos
  have hdiv : (1:ℝ) / 10 * (-1 / 1000) / Real.sqrt (0 + -1 / 1000 * (-1 / 1000) + 1 / 1000000)
      ≤ -(1 / 20) := by
    rw [div_le_iff₀ hs0]
    nlinarith
  linarith

/-- C5, amended. Zero-gradient idempotence on the states where the update is a number: in
both models `apply_push_value` with a gradient that is exactly zero leaves the value and
the accumulator unchanged whenever `accumulator + fudge_factor` is positive (the embedding
model component by component, `h` and `v` always), and leaves NaN in the updated field
otherwise. -/
theorem zero_gradient_idempotence_on_domain (initial_learning_rate : ℝ) :
    (∀ (param : LRParam ℝ) (count : Int),
      (LRPushAccessMethod.apply_push_value_ieee Real.sqrt initial_learning_rate param
          { val := 0, count := count }).grad2sum = some param.grad2sum ∧
      (0 < param.grad2sum + fudge_factor →
        (LRPushAccessMethod.apply_push_value_ieee Real.sqrt initial_learning_rate param
          { val := 0, count := count }).val = some param.val) ∧
      (param.grad2sum + fudge_factor ≤ 0 →
        (LRPushAccessMethod.apply_push_value_ieee Real.sqrt initial_learning_rate param
          { val := 0, count := count }).val = none)) ∧
    (∀ (n : Nat) (param : WParam ℝ n) (h_count v_count : Int) (i : Fin n),
      (WPushAccessMethod.apply_push_value_ieee Real.sqrt initial_learning_rate param
          { h_grad := 0, v_grad := 0, h_count := h_count, v_count := v_count }).h i
        = some (param.h i) ∧
      (WPushAccessMethod.apply_push_value_ieee Real.sqrt initial_learning_rate param
          { h_grad := 0, v_grad := 0, h_count := h_count, v_count := v_count }).v i
        = some (param.v i) ∧
      (0 < param.h2sum i + fudge_factor →
        (WPushAccessMethod.apply_push_value_ieee Real.sqrt initial_learning_rate param
          { h_grad := 0, v_grad := 0, h_count := h_count, v_count := v_count }).h2sum i
          = some (param.h2sum i)) ∧
      (0 < param.v2sum i + fudge_factor →
        (WPushAccessMethod.apply_push_value_ieee Real.sqrt initial_learning_rate param
          { h_grad := 0, v_grad := 0, h_count := h_count, v_count := v_count }).v2sum i
          = some (param.v2sum i)) ∧
      (param.h2sum i + fudge_factor ≤ 0 →
        (WPushAccessMethod.apply_push_value_ieee Real.sqrt initial_learning_rate param
          { h_grad := 0, v_grad := 0, h_count := h_count, v_count := v_count }).h2sum i
          = none) ∧
      (param.v2sum i + fudge_factor ≤ 0 →
        (WPushAccessMethod.apply_push_value_ieee Real.sqrt initial_learning_rate param
          { h_grad := 0, v_grad := 0, h_count := h_count, v_count := v_count }).v2sum i
          = none)) := by
  constructor
  · intro param count
    simp only [LRPushAccessMethod.apply_push_value_ieee, mul_zero, add_zero]
    refine ⟨trivial, fun hpos => ?_, fun hneg => ?_⟩
    · rw [div_sqrt_of_pos _ _ hpos]
      simp
    · rw [div_sqrt_of_nonpos _ _ hneg]
      rfl
  · intro n param h_count v_count i
    simp only [WPushAccessMethod.apply_push_value_ieee, Pi.zero_apply, mul_zero, add_zero]
    refine ⟨trivial, trivial, fun hpos => ?_, fun hpos => ?_, fun hneg => ?_, fun hneg => ?_⟩
    · rw [div_sqrt_of_pos _ _ hpos]
      simp
    · rw [div_sqrt_of_pos _ _ hpos]
      simp
    · rw [div_sqrt_of_nonpos _ _ hneg]
      rfl
    · rw [div_sqrt_of_nonpos _ _ hneg]
      rfl

/-- C5, amended, at fresh parameters (accumulators `0`): the zero push returns them. -/
theorem zero_gradient_idempotence_on_domain_witness :
    (0 : ℝ) < 0 + fudge_factor ∧
    (LRPushAccessMethod.apply_push_value_ieee Real.sqrt (1 / 10)
        ({ val := 1 / 2, grad2sum := 0 } : LRParam ℝ) { val := 0, count := 1 }).val
      = some (1 / 2) ∧
    (WPushAccessMethod.apply_push_value_ieee Real.sqrt (1 / 10)
        ({ h := 0, v := 0, h2sum := 0, v2sum := 0 } : WParam ℝ 1)
        { h_grad := 0, v_grad := 0, h_count := 0, v_count := 0 }).h2sum 0 = some 0 :=
  ⟨by norm_num [fudge_factor],
   ((zero_gradient_idempotence_on_domain (1 / 10)).1
      { val := 1 / 2, grad2sum := 0 } 1).2.1 (by norm_num [fudge_factor]),
   ((zero_gradient_idempotence_on_domain (1 / 10)).2 1
      { h := 0, v := 0, h2sum := 0, v2sum := 0 } 0 0 0).2.2.1 (by norm_num [fudge_factor])⟩

/-- C5, evaluated: a zero gradient pushed on an embedding parameter whose accumulator is
`-1` leaves NaN in the accumulator; and such a state is reached: on a fresh parameter
with learning rate `1/10` the push of the gradient `-1/1000` is a number (below `-1/25`),
and the zero gradient pushed after it leaves NaN in `h2sum`. -/
theorem zero_gradient_changes_negative_accumulator :
    (WPushAccessMethod.apply_push_value_ieee Real.sqrt (1 / 10)
        ({ h := 0, v := 0, h2sum := fun _ => -1, v2sum := 0 } : WParam ℝ 1)
        { h_grad := 0, v_grad := 0, h_count := 0, v_count := 0 }).h2sum 0 = none ∧
    (WPushAccessMethod.apply_push_value_ieee Real.sqrt (1 / 10)
        ({ h := 0, v := 0, h2sum := 0, v2sum := 0 } : WParam ℝ 1)
        { h_grad := fun _ => -1 / 1000, v_grad := fun _ => -1 / 1000,
          h_count := 1, v_count := 1 }).h2sum 0
      = some ((WPushAccessMethod.apply_push_value Real.sqrt (1 / 10)
        ({ h := 0, v := 0, h2sum := 0, v2sum := 0 } : WParam ℝ 1)
        { h_grad := fun _ => -1 / 1000, v_grad := fun _ => -1 / 1000,
          h_count := 1, v_count := 1 }).h2sum 0) ∧
    (WPushAccessMethod.apply_push_value_ieee Real.sqrt (1 / 10)
        (WPushAccessMethod.apply_push_value Real.sqrt (1 / 10)
          ({ h := 0, v := 0, h2sum := 0, v2sum := 0 } : WParam ℝ 1)
          { h_grad := fun _ => -1 / 1000, v_grad := fun _ => -1 / 1000,
            h_count := 1, v_count := 1 })
        { h_grad := 0, v_grad := 0, h_count := 0, v_count := 0 }).h2sum 0 = none := by
  refine ⟨?_, ?_, ?_⟩
  · simp only [WPushAccessMethod.apply_push_value_ieee, Pi.zero_apply, mul_zero, add_zero]
    rw [div_sqrt_of_nonpos _ _ (by norm_num [fudge_factor])]
    rfl
  · exact (w_apply_push_value_ieee_eq (1 / 10) _ _ 0).1 (by norm_num [fudge_factor])
  · have hle := w_push_fresh_h2sum_le
    simp only [WPushAccessMethod.apply_push_value_ieee, Pi.zero_apply, mul_zero, add_zero]
    rw [div_sqrt_of_nonpos _ _ (by
      have hf : (fudge_factor : ℝ) = 1 / 1000000 := rfl
      rw [hf]
      linarith)]
    rfl

/-- A sequence of embedding pushes never changes `h` or `v`. -/
theorem w_push_sequence_values {R : Type} [Field R] {n : Nat} (sqrtf : R → R)
    (initial_learning_rate : R) (pushes : List (WLocalGrad R n)) (param : WParam R n) :
    (pushes.foldl (WPushAccessMethod.apply_push_value sqrtf initial_learning_rate) param).h
        = param.h ∧
    (pushes.foldl (WPushAccessMethod.apply_push_value sqrtf initial_learning_rate) param).v
        = param.v := by
  induction pushes generalizing param with
  | nil => exact ⟨rfl, rfl⟩
  | cons g gs ih =>
    rw [List.foldl_cons]
    obtain ⟨h1, h2⟩ := ih (WPushAccessMethod.apply_push_value sqrtf initial_learning_rate param g)
    exact ⟨h1, h2⟩

/-- C7. The embedding push update writes only the accumulators: `h` and `v` are returned
unchanged, every accumulator component becomes
`acc + g^2 + learning_rate * g / sqrt (acc + g^2 + epsilon)`, and no sequence of pushes
changes `h` or `v`. -/
theorem w_apply_push_value_writes_accumulators {R : Type} [Field R] {n : Nat} (sqrtf : R → R)
    (initial_learning_rate : R) (param : WParam R n) (push_val : WLocalGrad R n) :
    (WPushAccessMethod.apply_push_value sqrtf initial_learning_rate param push_val).h = param.h ∧
    (WPushAccessMethod.apply_push_value sqrtf initial_learning_rate param push_val).v = param.v ∧
    (∀ i, (WPushAccessMethod.apply_push_value sqrtf initial_learning_rate param push_val).h2sum i
      = param.h2sum i + push_val.h_grad i ^ 2
        + initial_learning_rate * push_val.h_grad i
          / sqrtf (param.h2sum i + push_val.h_grad i ^ 2 + fudge_factor)) ∧
    (∀ i, (WPushAccessMethod.apply_push_value sqrtf initial_learning_rate param push_val).v2sum i
      = param.v2sum i + push_val.v_grad i ^ 2
        + initial_learning_rate * push_val.v_grad i
          / sqrtf (param.v2sum i + push_val.v_grad i ^ 2 + fudge_factor)) ∧
    (∀ pushes : List (WLocalGrad R n),
      (pushes.foldl (WPushAccessMethod.apply_push_value sqrtf initial_learning_rate) param).h
        = param.h ∧
      (pushes.foldl (WPushAccessMethod.apply_push_value sqrtf initial_learning_rate) param).v
        = param.v) := by
  refine ⟨rfl, rfl, fun i => ?_, fun i => ?_, fun pushes =>
    w_push_sequence_values sqrtf initial_learning_rate pushes param⟩
  · simp only [WPushAccessMethod.apply_push_value, sq]
  · simp only [WPushAccessMethod.apply_push_value, sq]

/-- The write loop of `operator<<` appends the pairs `h_grad[i], v_grad[i]` in order. -/
theorem foldl_write_eq {R A : Type} (f g : A → R) (l : List A) (bb : List R) :
    l.foldl (fun b i => (b ++ [f i]) ++ [g i]) bb = bb ++ l.flatMap (fun i => [f i, g i]) := by
  induction l generalizing bb with
  | nil => simp
  | cons x xs ih =>
    rw [List.foldl_cons, ih]
    simp [List.flatMap_cons]

/-- Length and entries of a list of interleaved pairs. -/
theorem flatMap_pair_index {R A : Type} (f g : A → R) (l : List A) :
    (l.flatMap (fun i => [f i, g i])).length = 2 * l.length ∧
    ∀ k, (l.flatMap (fun i => [f i, g i]))[2 * k]? = l[k]?.map f ∧
      (l.flatMap (fun i => [f i, g i]))[2 * k + 1]? = l[k]?.map g := by
  induction l with
  | nil => simp
  | cons x xs ih =>
    obtain ⟨hlen, hidx⟩ := ih
    refine ⟨?_, ?_⟩
    · simp only [List.flatMap_cons, List.length_append, hlen, List.length_cons,
        List.length_nil]
      ring
    · intro k
      cases k with
      | zero => simp [List.flatMap_cons]
      | succ j =>
        have e1 : 2 * (j + 1) = (2 * j) + 1 + 1 := by ring
        have e2 : 2 * (j + 1) + 1 = (2 * j + 1) + 1 + 1 := by ring
        obtain ⟨h1, h2⟩ := hidx j
        refine ⟨?_, ?_⟩
        · rw [e1]
          simpa [List.flatMap_cons] using h1
        · rw [e2]
          simpa [List.flatMap_cons] using h2

/-- C8. Embedding push pre-averaging: serialising a `WLocalGrad` appends `2 * len_vec`
floats; entry `2 i` is `h_grad[i] / h_count` when `h_count > 0` and `h_grad[i]` otherwise,
entry `2 i + 1` is `v_grad[i] / v_count` when `v_count > 0` and `v_grad[i]` otherwise. -/
theorem write_WLocalGrad_spec {R : Type} [Field R] {n : Nat} (bb : List R)
    (grad : WLocalGrad R n) :
    ∃ out : List R, (write_WLocalGrad bb grad).1 = bb ++ out ∧ out.length = 2 * n ∧
      ∀ i : Fin n,
        out[2 * i.val]? = some (if grad.h_count > 0 then grad.h_grad i / (grad.h_count : R)
          else grad.h_grad i) ∧
        out[2 * i.val + 1]? = some (if grad.v_count > 0 then grad.v_grad i / (grad.v_count : R)
          else grad.v_grad i) := by
  refine ⟨(List.finRange n).flatMap
    (fun i => [grad.average.h_grad i, grad.average.v_grad i]), ?_, ?_, ?_⟩
  · exact foldl_write_eq _ _ _ _
  · rw [(flatMap_pair_index _ _ _).1, List.length_finRange]
  · intro i
    obtain ⟨h1, h2⟩ := (flatMap_pair_index (fun i => grad.average.h_grad i)
      (fun i => grad.average.v_grad i) (List.finRange n)).2 i.val
    have hi : (List.finRange n)[i.val]? = some i := by
      rw [List.getElem?_eq_getElem (by simp)]
      simp [List.getElem_finRange]
    rw [h1, h2, hi]
    refine ⟨?_, ?_⟩
    · by_cases hc : grad.h_count > 0 <;> simp [WLocalGrad.average, hc]
    · by_cases hc : grad.v_count > 0 <;> simp [WLocalGrad.average, hc]

/-- The linear model's accumulator never decreases under a push (over an ordered field). -/
theorem lr_grad2sum_mono {R : Type} [LinearOrderedField R] (sqrtf : R → R)
    (initial_learning_rate : R) (param : LRParam R) (push_val : LRLocalGrad R) :
    param.grad2sum
      ≤ (LRPushAccessMethod.apply_push_value sqrtf initial_learning_rate param push_val).grad2sum := by
  simp only [LRPushAccessMethod.apply_push_value]
  nlinarith [mul_self_nonneg push_val.val]

/-- C6, evaluated: the linear accumulator `grad2sum` is non-decreasing under every push,
but the embedding accumulator is not: starting from `h2sum = 0` with learning rate `1/10`,
pushing the non-zero gradient `-1/1000` leaves `h2sum` negative, below its value before. -/
theorem accumulator_monotonicity_fails_for_embedding :
    (∀ (sqrtf : ℝ → ℝ) (initial_learning_rate : ℝ) (param : LRParam ℝ) (push_val : LRLocalGrad ℝ),
      param.grad2sum
        ≤ (LRPushAccessMethod.apply_push_value sqrtf initial_learning_rate param push_val).grad2sum) ∧
    (WPushAccessMethod.apply_push_value Real.sqrt (1 / 10)
        ({ h := 0, v := 0, h2sum := 0, v2sum := 0 } : WParam ℝ 1)
        { h_grad := fun _ => -1 / 1000, v_grad := fun _ => -1 / 1000,
          h_count := 1, v_count := 1 }).h2sum 0 < 0 := by
  refine ⟨fun sqrtf lr param push_val => lr_grad2sum_mono sqrtf lr param push_val, ?_⟩
  simp only [WPushAccessMethod.apply_push_value, fudge_factor, Pi.zero_apply]
  have hpos : (0:ℝ) < 0 + -1 / 1000 * (-1 / 1000) + 1 / 1000000 := by norm_num
  have hs : Real.sqrt (0 + -1 / 1000 * (-1 / 1000) + 1 / 1000000) ≤ 2 / 1000 := by
    rw [Real.sqrt_le_left (by norm_num)]
    norm_num
  have hs0 : 0 < Real.sqrt (0 + -1 / 1000 * (-1 / 1000) + 1 / 1000000) :=
    Real.sqrt_pos.mpr hpos
  have hdiv : (1:ℝ) / 10 * (-1 / 1000) / Real.sqrt (0 + -1 / 1000 * (-1 / 1000) + 1 / 1000000)
      ≤ -(1 / 20) := by
    rw [div_le_iff₀ hs0]
    nlinarith
  linarith

/-! ### The embedding kernel -/

/-- A property preserved by every step of a left fold holds after the fold. -/
theorem foldl_preserves {S A : Type} (Q : S → Prop) (f : S → A → S)
    (hf : ∀ s a, Q s → Q (f s a)) (l : List A) (s : S) (hs : Q s) : Q (l.foldl f s) := by
  induction l generalizing s with
  | nil => exact hs
  | cons x xs ih => exact ih (f s x) (hf s x hs)

/-- The vector `neu1` after the first inner loop: the `v` vectors of the context words,
in loop order, added to its value before. -/
theorem context_loop_neu1 {R : Type} [LinearOrderedField R] {n : Nat} (w : Word2Vec R n)
    (b : Nat) (ins : W2v.Instance) (pos : Nat) (st : KernelState R n) :
    (context_loop w b ins pos st).neu1
      = st.neu1 + (((window_range w._window b).filterMap
          (context_index w._window ins.words.length pos)).map
            (fun c => (w.params (ins.words.getD c 0)).v)).sum := by
  unfold context_loop
  generalize window_range w._window b = l
  induction l generalizing st with
  | nil => simp
  | cons a as ih =>
    rw [List.foldl_cons, ih]
    cases hc : context_index w._window ins.words.length pos a with
    | none => simp [List.filterMap_cons, hc]
    | some c => simp [List.filterMap_cons, hc, add_assoc]

/-- Drawing a negative sample changes only the count of random values drawn. -/
theorem sample_negative_fields {R : Type} {n : Nat} (w : Word2Vec R n) (st : KernelState R n) :
    (sample_negative w st).2.neu1 = st.neu1 ∧ (sample_negative w st).2.touched = st.touched ∧
    (sample_negative w st).2.grads = st.grads := by
  simp only [sample_negative]
  split_ifs <;> exact ⟨rfl, rfl, rfl⟩

/-- Scoring a target leaves `neu1` as it is. -/
theorem target_step_neu1 {R : Type} [LinearOrderedField R] [FloorRing R] {n : Nat}
    (w : Word2Vec R n) (word : w2v_key_t) (st : KernelState R n) (d : Nat) :
    (target_step w word st d).neu1 = st.neu1 := by
  simp only [target_step]
  split_ifs
  · rfl
  · exact (sample_negative_fields w st).1
  · exact (sample_negative_fields w st).1

/-- The third inner loop leaves `neu1` as it is. -/
theorem backprop_loop_neu1 {R : Type} [LinearOrderedField R] {n : Nat} (w : Word2Vec R n)
    (b : Nat) (ins : W2v.Instance) (pos : Nat) (st : KernelState R n) :
    (backprop_loop w b ins pos st).neu1 = st.neu1 := by
  unfold backprop_loop
  apply foldl_preserves (fun s : KernelState R n => s.neu1 = st.neu1) _ _ _ _ rfl
  intro s a hs
  cases hc : context_index w._window ins.words.length pos a with
  | none => simpa using hs
  | some c => simpa using hs

/-- The vector `neu1` after one centre position is its value after the first inner loop. -/
theorem position_step_neu1 {R : Type} [LinearOrderedField R] [FloorRing R] {n : Nat}
    (w : Word2Vec R n) (b : Nat) (ins : W2v.Instance) (st : KernelState R n) (pos : Nat) :
    (position_step w b ins st pos).neu1 = (context_loop w b ins pos st).neu1 := by
  unfold position_step
  rw [backprop_loop_neu1]
  apply foldl_preserves (fun s : KernelState R n => s.neu1 = (context_loop w b ins pos st).neu1)
    _ _ _ _ rfl
  intro s d hs
  rw [target_step_neu1]
  exact hs

/-- When the body of the context loop is not skipped at `a`, the context position is
`pos - window + a`, different from `pos` and inside the sentence. -/
theorem context_index_eq_some {window L pos a c : Nat} :
    context_index window L pos a = some c ↔ (a ≠ window ∧ c + window = pos + a ∧ c < L) := by
  simp only [context_index]
  constructor
  · intro h
    split_ifs at h with h1 h2
    simp only [Option.some.injEq] at h
    omega
  · rintro ⟨h1, h2, h3⟩
    have hc : (pos : Int) - (window : Int) + (a : Int) = (c : Int) := by omega
    rw [hc, if_neg h1, if_neg (by omega)]
    simp

/-- The positions visited by the context loop are exactly the positions `c` of the sentence
with `pos - window + b <= c <= pos + window - b` and `c != pos`, each visited once. -/
theorem context_positions_sum {M : Type} [AddCommMonoid M] (window b L pos : Nat)
    (f : Nat → M) :
    (((window_range window b).filterMap (context_index window L pos)).map f).sum
      = ∑ c in (Finset.range L).filter
          (fun c => pos + b ≤ c + window ∧ c + b ≤ pos + window ∧ c ≠ pos), f c := by
  have hnd : ((window_range window b).filterMap (context_index window L pos)).Nodup := by
    apply List.Nodup.filterMap
    · intro a a2 c h1 h2
      rw [Option.mem_def, context_index_eq_some] at h1 h2
      omega
    · exact List.nodup_range' _ _
  rw [← List.sum_toFinset f hnd]
  apply Finset.sum_congr _ (fun _ _ => rfl)
  ext c
  simp only [List.mem_toFinset, List.mem_filterMap, window_range, List.mem_range'_1,
    context_index_eq_some, Finset.mem_filter, Finset.mem_range]
  constructor
  · rintro ⟨a, ⟨h1, h2⟩, h3, h4, h5⟩
    omega
  · rintro ⟨h1, h2, h3, h4⟩
    exact ⟨c + window - pos, by omega, by omega, by omega, h1⟩

/-- The vector `neu1` after the centre positions `0 .. k-1`: nothing resets it between
positions, so the context sums of all of them have been added. -/
theorem learn_positions_neu1 {R : Type} [LinearOrderedField R] [FloorRing R] {n : Nat}
    (w : Word2Vec R n) (b : Nat) (ins : W2v.Instance) (k : Nat) (st : KernelState R n) :
    (learn_positions w b ins k st).neu1
      = st.neu1 + ∑ p in Finset.range k, ∑ c in (Finset.range ins.words.length).filter
          (fun c => p + b ≤ c + w._window ∧ c + b ≤ p + w._window ∧ c ≠ p),
            (w.params (ins.words.getD c 0)).v := by
  induction k with
  | zero => simp [learn_positions]
  | succ k ih =>
    unfold learn_positions at ih ⊢
    rw [List.range_succ, List.foldl_append, List.foldl_cons, List.foldl_nil,
      position_step_neu1, context_loop_neu1, ih, Finset.sum_range_succ,
      context_positions_sum w._window b ins.words.length k
        (fun c => (w.params (ins.words.getD c 0)).v), add_assoc]

/-- The context vector used at centre position `pos` is the running sum of the context
sums of the positions `0 .. pos`. -/
theorem neu1_at_running_sum {R : Type} [LinearOrderedField R] [FloorRing R] {n : Nat}
    (w : Word2Vec R n) (ins : W2v.Instance) (st : KernelState R n) (pos : Nat) :
    w.neu1_at ins st pos
      = ∑ p in Finset.range (pos + 1), ∑ c in (Finset.range ins.words.length).filter
          (fun c => p + shrink w st ≤ c + w._window ∧ c + shrink w st ≤ p + w._window ∧ c ≠ p),
            (w.params (ins.words.getD c 0)).v := by
  unfold Word2Vec.neu1_at
  rw [context_loop_neu1, learn_positions_neu1, Finset.sum_range_succ,
    context_positions_sum w._window (shrink w st) ins.words.length pos
      (fun c => (w.params (ins.words.getD c 0)).v)]
  simp [learn_start]

/-- The general behaviour behind C2. For a positive window and a centre position `pos` of
the instance, the shrink `b` lies in `[0, window)` and the vector `neu1` with which
`learn_instance` scores the targets at `pos` is the sum, over all centre positions
`p <= pos`, of the `v` vectors of the tokens at the positions `c` with
`p - window + b <= c <= p + window - b`, `c != p` and `0 <= c < L`: `neu1` is cleared once
per instance and keeps the context sums of the earlier positions. -/
theorem context_vector_running_sum {R : Type} [LinearOrderedField R] [FloorRing R] {n : Nat}
    (w : Word2Vec R n) (ins : W2v.Instance) (st : KernelState R n) (pos : Nat)
    (hw : 0 < w._window) (_hpos : pos < ins.words.length) :
    shrink w st < w._window ∧
    w.neu1_at ins st pos
      = ∑ p in Finset.range (pos + 1), ∑ c in (Finset.range ins.words.length).filter
          (fun c => p + shrink w st ≤ c + w._window ∧ c + shrink w st ≤ p + w._window ∧ c ≠ p),
            (w.params (ins.words.getD c 0)).v :=
  ⟨Nat.mod_lt _ hw, neu1_at_running_sum w ins st pos⟩

/-- C2, evaluated: for the instance `1 2` with window 1 (shrink 0) and cached vectors
`v(1) = (1)`, `v(2) = (2)`, the vector `neu1` with which the targets of position 1 are
scored is `(3) = v(2) + v(1)`, while the sum of the `v` vectors of the context tokens of
position 1 is `(1) = v(1)`: the context sum of position 0 is still in `neu1`. -/
theorem context_vector_not_single_sum :
    shrink sample_w2v (KernelState.fresh ℚ 1) = 0 ∧
    (1 : Nat) < (⟨[1, 2]⟩ : W2v.Instance).words.length ∧
    sample_w2v.neu1_at ⟨[1, 2]⟩ (KernelState.fresh ℚ 1) 1 = (fun _ => 3) ∧
    (∑ c in (Finset.range (⟨[1, 2]⟩ : W2v.Instance).words.length).filter
          (fun c => 1 + shrink sample_w2v (KernelState.fresh ℚ 1) ≤ c + sample_w2v._window
            ∧ c + shrink sample_w2v (KernelState.fresh ℚ 1) ≤ 1 + sample_w2v._window ∧ c ≠ 1),
            (sample_w2v.params ((⟨[1, 2]⟩ : W2v.Instance).words.getD c 0)).v)
      = (fun _ => 1) := by
  have hb : shrink sample_w2v (KernelState.fresh ℚ 1) = 0 := by decide
  refine ⟨hb, by decide, ?_, ?_⟩
  · rw [neu1_at_running_sum, hb]
    funext i
    simp [Finset.sum_range_succ, Finset.sum_filter, sample_w2v]
    norm_num
  · rw [hb]
    funext i
    simp [Finset.sum_range_succ, Finset.sum_filter, sample_w2v]

/-! ### Keys accessed by the kernel -/

/-- The inner loops over the context only add keys to the access log and never lower a
contribution count `h_count`. -/
theorem context_loops_grow {R : Type} [LinearOrderedField R] {n : Nat} (w : Word2Vec R n)
    (b : Nat) (ins : W2v.Instance) (pos : Nat) (st : KernelState R n) (k : w2v_key_t) :
    ((k ∈ st.touched → k ∈ (context_loop w b ins pos st).touched) ∧
      (st.grads k).h_count ≤ ((context_loop w b ins pos st).grads k).h_count) ∧
    ((k ∈ st.touched → k ∈ (backprop_loop w b ins pos st).touched) ∧
      (st.grads k).h_count ≤ ((backprop_loop w b ins pos st).grads k).h_count) := by
  constructor
  · unfold context_loop
    apply foldl_preserves (fun s : KernelState R n =>
      (k ∈ st.touched → k ∈ s.touched) ∧ (st.grads k).h_count ≤ (s.grads k).h_count)
      _ _ _ _ ⟨id, le_refl _⟩
    intro s a hs
    cases hc : context_index w._window ins.words.length pos a with
    | none => simpa using hs
    | some c => exact ⟨fun h => List.mem_cons_of_mem _ (hs.1 h), hs.2⟩
  · unfold backprop_loop
    apply foldl_preserves (fun s : KernelState R n =>
      (k ∈ st.touched → k ∈ s.touched) ∧ (st.grads k).h_count ≤ (s.grads k).h_count)
      _ _ _ _ ⟨id, le_refl _⟩
    intro s a hs
    cases hc : context_index w._window ins.words.length pos a with
    | none => simpa using hs
    | some c =>
      refine ⟨fun h => List.mem_cons_of_mem _ (hs.1 h), ?_⟩
      by_cases hk : k = ins.words.getD c 0
      · subst hk
        simpa [WLocalGrad.accu_v] using hs.2
      · simpa [Function.update_noteq hk] using hs.2

/-- Scoring a target logs it, raises its `h_count` by one and lowers no `h_count`. -/
theorem score_target_grows {R : Type} [LinearOrderedField R] [FloorRing R] {n : Nat}
    (w : Word2Vec R n) (target : w2v_key_t) (label : R) (st : KernelState R n) :
    target ∈ (score_target w target label st).touched ∧
    (st.grads target).h_count + 1 ≤ ((score_target w target label st).grads target).h_count ∧
    ∀ k, (k ∈ st.touched → k ∈ (score_target w target label st).touched) ∧
      (st.grads k).h_count ≤ ((score_target w target label st).grads k).h_count := by
  refine ⟨List.mem_cons_self _ _, ?_, fun k => ⟨fun h => List.mem_cons_of_mem _ h, ?_⟩⟩
  · simp [score_target, WLocalGrad.accu_h]
  · by_cases hk : k = target
    · subst hk
      simp [score_target, WLocalGrad.accu_h]
    · simp [score_target, Function.update_noteq hk]

/-- One iteration of the loop over `d` only adds keys to the access log and lowers no
`h_count`. -/
theorem target_step_grows {R : Type} [LinearOrderedField R] [FloorRing R] {n : Nat}
    (w : Word2Vec R n) (word : w2v_key_t) (st : KernelState R n) (d : Nat) (k : w2v_key_t) :
    (k ∈ st.touched → k ∈ (target_step w word st d).touched) ∧
    (st.grads k).h_count ≤ ((target_step w word st d).grads k).h_count := by
  obtain ⟨_, hs2, hs3⟩ := sample_negative_fields w st
  simp only [target_step]
  split_ifs
  · exact (score_target_grows w word 1 st).2.2 k
  · rw [hs2, hs3]
    exact ⟨id, le_refl _⟩
  · obtain ⟨h1, h2⟩ := (score_target_grows w (sample_negative w st).1 0
      (sample_negative w st).2).2.2 k
    rw [hs2] at h1
    rw [hs3] at h2
    exact ⟨h1, h2⟩

/-- The loop over `d` logs the centre word and raises its `h_count`. -/
theorem target_loop_grows {R : Type} [LinearOrderedField R] [FloorRing R] {n : Nat}
    (w : Word2Vec R n) (word : w2v_key_t) (st : KernelState R n) :
    (word ∈ ((List.range (w._negative + 1)).foldl (target_step w word) st).touched ∧
      (st.grads word).h_count + 1
        ≤ (((List.range (w._negative + 1)).foldl (target_step w word) st).grads word).h_count) ∧
    ∀ k, (k ∈ st.touched →
        k ∈ ((List.range (w._negative + 1)).foldl (target_step w word) st).touched) ∧
      (st.grads k).h_count
        ≤ (((List.range (w._negative + 1)).foldl (target_step w word) st).grads k).h_count := by
  have hmono : ∀ (l : List Nat) (s : KernelState R n) (k : w2v_key_t),
      (k ∈ s.touched → k ∈ (l.foldl (target_step w word) s).touched) ∧
      (s.grads k).h_count ≤ ((l.foldl (target_step w word) s).grads k).h_count := by
    intro l s k
    apply foldl_preserves (fun t : KernelState R n =>
      (k ∈ s.touched → k ∈ t.touched) ∧ (s.grads k).h_count ≤ (t.grads k).h_count)
      _ _ _ _ ⟨id, le_refl _⟩
    intro t d ht
    obtain ⟨h1, h2⟩ := target_step_grows w word t d k
    exact ⟨fun h => h1 (ht.1 h), le_trans ht.2 h2⟩
  refine ⟨?_, hmono _ st⟩
  rw [List.range_succ_eq_map, List.foldl_cons]
  have h0 : target_step w word st 0 = score_target w word 1 st := by simp [target_step]
  rw [h0]
  obtain ⟨h1, h2, _⟩ := score_target_grows w word 1 st
  obtain ⟨h3, h4⟩ := hmono (List.map Nat.succ (List.range w._negative))
    (score_target w word 1 st) word
  exact ⟨h3 h1, le_trans h2 h4⟩

/-- One centre position logs its word and raises its `h_count`; it removes no key from the
log and lowers no `h_count`. -/
theorem position_step_grows {R : Type} [LinearOrderedField R] [FloorRing R] {n : Nat}
    (w : Word2Vec R n) (b : Nat) (ins : W2v.Instance) (st : KernelState R n) (pos : Nat) :
    (ins.words.getD pos 0 ∈ (position_step w b ins st pos).touched ∧
      (st.grads (ins.words.getD pos 0)).h_count + 1
        ≤ ((position_step w b ins st pos).grads (ins.words.getD pos 0)).h_count) ∧
    ∀ k, (k ∈ st.touched → k ∈ (position_step w b ins st pos).touched) ∧
      (st.grads k).h_count ≤ ((position_step w b ins st pos).grads k).h_count := by
  have hall : ∀ k, (k ∈ st.touched → k ∈ (position_step w b ins st pos).touched) ∧
      (st.grads k).h_count ≤ ((position_step w b ins st pos).grads k).h_count := by
    intro k
    simp only [position_step]
    obtain ⟨h1, h2⟩ := (context_loops_grow w b ins pos st k).1
    obtain ⟨h3, h4⟩ := (target_loop_grows w (ins.words.getD pos 0)
      (context_loop w b ins pos st)).2 k
    obtain ⟨h5, h6⟩ := (context_loops_grow w b ins pos
      ((List.range (w._negative + 1)).foldl (target_step w (ins.words.getD pos 0))
        (context_loop w b ins pos st)) k).2
    exact ⟨fun h => h5 (h3 (h1 h)), le_trans h2 (le_trans h4 h6)⟩
  refine ⟨?_, hall⟩
  simp only [position_step]
  obtain ⟨_, h2⟩ := (context_loops_grow w b ins pos st (ins.words.getD pos 0)).1
  obtain ⟨h3, h4⟩ := (target_loop_grows w (ins.words.getD pos 0)
    (context_loop w b ins pos st)).1
  obtain ⟨h5, h6⟩ := (context_loops_grow w b ins pos
    ((List.range (w._negative + 1)).foldl (target_step w (ins.words.getD pos 0))
      (context_loop w b ins pos st)) (ins.words.getD pos 0)).2
  exact ⟨h5 h3, by omega⟩

/-- After the centre positions `0 .. k-1` every word at one of these positions is in the
access log with its `h_count` raised; no key left the log and no `h_count` went down. -/
theorem learn_positions_grows {R : Type} [LinearOrderedField R] [FloorRing R] {n : Nat}
    (w : Word2Vec R n) (b : Nat) (ins : W2v.Instance) (k : Nat) (st : KernelState R n) :
    (∀ pos, pos < k → ins.words.getD pos 0 ∈ (learn_positions w b ins k st).touched ∧
      (st.grads (ins.words.getD pos 0)).h_count + 1
        ≤ ((learn_positions w b ins k st).grads (ins.words.getD pos 0)).h_count) ∧
    ∀ key, (key ∈ st.touched → key ∈ (learn_positions w b ins k st).touched) ∧
      (st.grads key).h_count ≤ ((learn_positions w b ins k st).grads key).h_count := by
  induction k with
  | zero =>
    refine ⟨fun pos hpos => absurd hpos (Nat.not_lt_zero _), fun key => ?_⟩
    simp [learn_positions]
  | succ k ih =>
    have hstep : learn_positions w b ins (k + 1) st
        = position_step w b ins (learn_positions w b ins k st) k := by
      simp [learn_positions, List.range_succ, List.foldl_append]
    rw [hstep]
    obtain ⟨ih1, ih2⟩ := ih
    obtain ⟨hp1, hp2⟩ := position_step_grows w b ins (learn_positions w b ins k st) k
    have hall : ∀ key, (key ∈ st.touched →
        key ∈ (position_step w b ins (learn_positions w b ins k st) k).touched) ∧
        (st.grads key).h_count
          ≤ ((position_step w b ins (learn_positions w b ins k st) k).grads key).h_count :=
      fun key => ⟨fun h => (hp2 key).1 ((ih2 key).1 h), le_trans (ih2 key).2 (hp2 key).2⟩
    refine ⟨fun pos hpos => ?_, hall⟩
    rcases Nat.lt_succ_iff_lt_or_eq.mp hpos with hlt | heq
    · obtain ⟨h1, h2⟩ := ih1 pos hlt
      exact ⟨(hp2 _).1 h1, le_trans h2 (hp2 _).2⟩
    · subst heq
      exact ⟨hp1.1, le_trans (by linarith [(ih2 (ins.words.getD pos 0)).2]) hp1.2⟩

/-- The kernel accesses the entries of every word of the instance it is given, and adds a
contribution to the `h` gradient of each of them. -/
theorem learn_instance_grows {R : Type} [LinearOrderedField R] [FloorRing R] {n : Nat}
    (w : Word2Vec R n) (ins : W2v.Instance) (st : KernelState R n) :
    (∀ word ∈ ins.words, word ∈ (w.learn_instance ins st).touched ∧
      (st.grads word).h_count + 1 ≤ ((w.learn_instance ins st).grads word).h_count) ∧
    ∀ key, (key ∈ st.touched → key ∈ (w.learn_instance ins st).touched) ∧
      (st.grads key).h_count ≤ ((w.learn_instance ins st).grads key).h_count := by
  obtain ⟨h1, h2⟩ := learn_positions_grows w (shrink w st) ins ins.words.length (learn_start st)
  refine ⟨fun word hword => ?_, fun key => h2 key⟩
  obtain ⟨pos, hpos, hget⟩ := List.getElem_of_mem hword
  have hd : ins.words.getD pos 0 = word := by
    rw [List.getD_eq_getElem _ _ hpos, hget]
  have := h1 pos hpos
  rw [hd] at this
  exact this

/-- The compute handler never removes a key from the access log nor lowers an `h_count`. -/
theorem train_handler_grows {R : Type} [LinearOrderedField R] [FloorRing R] {n : Nat}
    (w : Word2Vec R n) (lines : List (List w2v_key_t)) (ins : W2v.Instance)
    (st : KernelState R n) (line_count : Int) (key : w2v_key_t) :
    (key ∈ st.touched → key ∈ (train_handler w lines ins (st, line_count)).1.touched) ∧
    (st.grads key).h_count
      ≤ ((train_handler w lines ins (st, line_count)).1.grads key).h_count := by
  induction lines generalizing ins st line_count with
  | nil => exact ⟨id, le_refl _⟩
  | cons line rest ih =>
    obtain ⟨h1, h2⟩ := (learn_instance_grows w
      (W2v.parse_instance w.min_sentence_length line ins).2 { st with neu1 := 0, neu1e := 0 }).2 key
    simp only [train_handler]
    split_ifs
    · exact ⟨h1, h2⟩
    · obtain ⟨h3, h4⟩ := ih (W2v.parse_instance w.min_sentence_length line ins).2
        (w.learn_instance (W2v.parse_instance w.min_sentence_length line ins).2
          { st with neu1 := 0, neu1e := 0 }) (line_count + 1)
      exact ⟨fun h => h3 (h1 h), le_trans h2 h4⟩

/-! ### The gatherer and the compute handler on concrete windows -/

/-- C9, evaluated: `gather_keys` clears `_local_keys` but not `_word_freq`. A last window
`7 7 7` of an epoch gathers fewer than 5 keys, so the round loop stops without `push()` and
`clear()`; the first `gather_keys` of the next epoch over the line `1 2 3 4 5` then returns
a FrequencyTable that still maps 7 to 3, although 7 is neither in the lines gathered by
that call nor in the ActiveKeySet. -/
theorem gather_keys_merges_word_freq :
    MiniBatch.gather_keys 1 ⟨[], [], [], []⟩ [[7, 7, 7]] 2 = (1, ⟨[7], [(7, 3)], [], []⟩) ∧
    MiniBatch.gather_keys 1 ⟨[7], [(7, 3)], [], []⟩ [[1, 2, 3, 4, 5]] 2
      = (5, ⟨[1, 2, 3, 4, 5], [(1, 1), (2, 1), (3, 1), (4, 1), (5, 1), (7, 3)], [], []⟩) ∧
    map_read 7 (MiniBatch.gather_keys 1 ⟨[7], [(7, 3)], [], []⟩ [[1, 2, 3, 4, 5]] 2).2._word_freq
      = 3 ∧
    7 ∉ (MiniBatch.gather_keys 1 ⟨[7], [(7, 3)], [], []⟩ [[1, 2, 3, 4, 5]] 2).2._local_keys := by
  decide

/-- The gatherer skips a line with fewer than `min_length` tokens: nothing is inserted
and `line_count` is not incremented. -/
theorem gather_handler_skips_short_line (min_length minibatch : Int)
    (line : List w2v_key_t) (rest : List (List w2v_key_t)) (st : MiniBatch × Int)
    (hshort : line.length < to_size_t min_length) :
    gather_handler min_length minibatch (line :: rest) st
      = gather_handler min_length minibatch rest st := by
  obtain ⟨mb, line_count⟩ := st
  have hwords : line.foldl (fun ws word => ws ++ [word]) [] = line := by
    have hgen : ∀ (l acc : List w2v_key_t),
        l.foldl (fun ws word => ws ++ [word]) acc = acc ++ l := by
      intro l
      induction l with
      | nil => simp
      | cons x xs ih =>
        intro acc
        rw [List.foldl_cons, ih]
        simp
    simpa using hgen line []
  have hp : (W2v.parse_instance min_length line { words := [] }).1 = false := by
    simp only [W2v.parse_instance, hwords]
    exact decide_eq_false (Nat.not_le.mpr hshort)
  rw [gather_handler, if_pos hp]

/-- C1, evaluated: with `min_sentence_length = 2` and the window `6` / `1 2 3 4 5`, the
gatherer started from a cleared minibatch skips the one-token line and returns the 5 keys
`1 .. 5`, while the compute handler runs `learn_instance` on the instance `6` and accesses
the cache entries of the word 6. -/
theorem key_set_consistency_fails_on_short_line {R : Type} [LinearOrderedField R]
    [FloorRing R] {n : Nat} (window negative table_size : Nat) (alpha : R)
    (params : w2v_key_t → WLocalParam R n) (table : List w2v_key_t) (exptable : Nat → R)
    (global_random : Nat → Nat) (st : KernelState R n) :
    MiniBatch.gather_keys 2 (MiniBatch.clear ⟨[], [], [], []⟩) [[6], [1, 2, 3, 4, 5]] 2
      = (5, ⟨[1, 2, 3, 4, 5], [(1, 1), (2, 1), (3, 1), (4, 1), (5, 1)], [], []⟩) ∧
    6 ∉ (MiniBatch.gather_keys 2 (MiniBatch.clear ⟨[], [], [], []⟩)
          [[6], [1, 2, 3, 4, 5]] 2).2._local_keys ∧
    train_handler
        { _batchsize := 2, _window := window, _negative := negative, _alpha := alpha,
          min_sentence_length := 2, table_size := table_size, params := params,
          table := table, exptable := exptable, global_random := global_random }
        [[6], [1, 2, 3, 4, 5]] ⟨[]⟩ (st, 0)
      = train_handler
        { _batchsize := 2, _window := window, _negative := negative, _alpha := alpha,
          min_sentence_length := 2, table_size := table_size, params := params,
          table := table, exptable := exptable, global_random := global_random }
        [[1, 2, 3, 4, 5]] ⟨[6]⟩
        (Word2Vec.learn_instance
          { _batchsize := 2, _window := window, _negative := negative, _alpha := alpha,
            min_sentence_length := 2, table_size := table_size, params := params,
            table := table, exptable := exptable, global_random := global_random }
          ⟨[6]⟩ { st with neu1 := 0, neu1e := 0 }, 1) ∧
    6 ∈ (train_handler
          { _batchsize := 2, _window := window, _negative := negative, _alpha := alpha,
            min_sentence_length := 2, table_size := table_size, params := params,
            table := table, exptable := exptable, global_random := global_random }
          [[6], [1, 2, 3, 4, 5]] ⟨[]⟩ (st, 0)).1.touched := by
  have hstep : train_handler
        { _batchsize := 2, _window := window, _negative := negative, _alpha := alpha,
          min_sentence_length := 2, table_size := table_size, params := params,
          table := table, exptable := exptable, global_random := global_random }
        [[6], [1, 2, 3, 4, 5]] ⟨[]⟩ (st, 0)
      = train_handler
        { _batchsize := 2, _window := window, _negative := negative, _alpha := alpha,
          min_sentence_length := 2, table_size := table_size, params := params,
          table := table, exptable := exptable, global_random := global_random }
        [[1, 2, 3, 4, 5]] ⟨[6]⟩
        (Word2Vec.learn_instance
          { _batchsize := 2, _window := window, _negative := negative, _alpha := alpha,
            min_sentence_length := 2, table_size := table_size, params := params,
            table := table, exptable := exptable, global_random := global_random }
          ⟨[6]⟩ { st with neu1 := 0, neu1e := 0 }, 1) := by
    rw [train_handler]
    simp [W2v.parse_instance]
  refine ⟨by decide, by decide, hstep, ?_⟩
  rw [hstep]
  exact (train_handler_grows _ _ _ _ _ 6).1
    ((learn_instance_grows _ ⟨[6]⟩ _).1 6 (by simp)).1

/-- C10, evaluated: with `min_sentence_length = 3` and the window `8 9` / `1 2 3 4 5`, the
gatherer rejects the two-token line (its tokens are not added and it is not counted:
`line_count` ends at 1), but the compute handler ignores the result of `W2v.parse_instance`,
runs `learn_instance` on the instance `8 9`, and the word 8 receives a gradient
contribution. -/
theorem short_line_reaches_kernel {R : Type} [LinearOrderedField R]
    [FloorRing R] {n : Nat} (window negative table_size : Nat) (alpha : R)
    (params : w2v_key_t → WLocalParam R n) (table : List w2v_key_t) (exptable : Nat → R)
    (global_random : Nat → Nat) (st : KernelState R n) :
    (W2v.parse_instance 3 [8, 9] ⟨[]⟩).1 = false ∧
    gather_handler 3 2 [[8, 9], [1, 2, 3, 4, 5]] (⟨[], [], [], []⟩, 0)
      = (⟨[1, 2, 3, 4, 5], [(1, 1), (2, 1), (3, 1), (4, 1), (5, 1)], [], []⟩, 1) ∧
    train_handler
        { _batchsize := 2, _window := window, _negative := negative, _alpha := alpha,
          min_sentence_length := 3, table_size := table_size, params := params,
          table := table, exptable := exptable, global_random := global_random }
        [[8, 9], [1, 2, 3, 4, 5]] ⟨[]⟩ (st, 0)
      = train_handler
        { _batchsize := 2, _window := window, _negative := negative, _alpha := alpha,
          min_sentence_length := 3, table_size := table_size, params := params,
          table := table, exptable := exptable, global_random := global_random }
        [[1, 2, 3, 4, 5]] ⟨[8, 9]⟩
        (Word2Vec.learn_instance
          { _batchsize := 2, _window := window, _negative := negative, _alpha := alpha,
            min_sentence_length := 3, table_size := table_size, params := params,
            table := table, exptable := exptable, global_random := global_random }
          ⟨[8, 9]⟩ { st with neu1 := 0, neu1e := 0 }, 1) ∧
    8 ∈ (train_handler
          { _batchsize := 2, _window := window, _negative := negative, _alpha := alpha,
            min_sentence_length := 3, table_size := table_size, params := params,
            table := table, exptable := exptable, global_random := global_random }
          [[8, 9], [1, 2, 3, 4, 5]] ⟨[]⟩ (st, 0)).1.touched ∧
    (st.grads 8).h_count + 1
      ≤ ((train_handler
          { _batchsize := 2, _window := window, _negative := negative, _alpha := alpha,
            min_sentence_length := 3, table_size := table_size, params := params,
            table := table, exptable := exptable, global_random := global_random }
          [[8, 9], [1, 2, 3, 4, 5]] ⟨[]⟩ (st, 0)).1.grads 8).h_count := by
  have hstep : train_handler
        { _batchsize := 2, _window := window, _negative := negative, _alpha := alpha,
          min_sentence_length := 3, table_size := table_size, params := params,
          table := table, exptable := exptable, global_random := global_random }
        [[8, 9], [1, 2, 3, 4, 5]] ⟨[]⟩ (st, 0)
      = train_handler
        { _batchsize := 2, _window := window, _negative := negative, _alpha := alpha,
          min_sentence_length := 3, table_size := table_size, params := params,
          table := table, exptable := exptable, global_random := global_random }
        [[1, 2, 3, 4, 5]] ⟨[8, 9]⟩
        (Word2Vec.learn_instance
          { _batchsize := 2, _window := window, _negative := negative, _alpha := alpha,
            min_sentence_length := 3, table_size := table_size, params := params,
            table := table, exptable := exptable, global_random := global_random }
          ⟨[8, 9]⟩ { st with neu1 := 0, neu1e := 0 }, 1) := by
    rw [train_handler]
    simp [W2v.parse_instance]
  refine ⟨by decide, by decide, hstep, ?_, ?_⟩
  · rw [hstep]
    exact (train_handler_grows _ _ _ _ _ 8).1
      ((learn_instance_grows _ ⟨[8, 9]⟩ _).1 8 (by simp)).1
  · rw [hstep]
    exact le_trans ((learn_instance_grows _ ⟨[8, 9]⟩ _).1 8 (by simp)).2
      (train_handler_grows _ _ _ _ _ 8).2

/-! ### The unigram table -/

/-- The loop that computes `train_words_pow` sums the weights of the entries. -/
theorem train_words_pow_eq_sum {R : Type} [LinearOrderedField R] (powf : Int → R)
    (wf : List (w2v_key_t × Int)) :
    train_words_pow powf wf = (wf.map (fun p => powf p.2)).sum := by
  unfold train_words_pow
  rw [foldl_add_eq_sum (fun p : w2v_key_t × Int => powf p.2), zero_add]

/-- Reading `_word_freq[key]` for the key of an entry returns its count. -/
theorem map_read_of_mem (wf : List (w2v_key_t × Int)) (hnd : (wf.map Prod.fst).Nodup)
    (p : w2v_key_t × Int) (hp : p ∈ wf) : map_read p.1 wf = p.2 := by
  induction wf with
  | nil => cases hp
  | cons q rest ih =>
    obtain ⟨k, c⟩ := q
    rw [List.map_cons, List.nodup_cons] at hnd
    rcases List.mem_cons.mp hp with h | h
    · subst h
      simp [map_read]
    · have hne : p.1 ≠ k := by
        intro heq
        have hmem : p.1 ∈ rest.map Prod.fst := List.mem_map_of_mem Prod.fst h
        rw [heq] at hmem
        exact hnd.1 hmem
      simp only [map_read, if_neg hne]
      exact ih hnd.2 h

/-- Reading `_word_freq[key]` for the key of an entry of the sorted map inserts nothing. -/
theorem map_touch_of_mem (wf : List (w2v_key_t × Int))
    (hs : (wf.map Prod.fst).Pairwise (fun x y => x < y))
    (p : w2v_key_t × Int) (hp : p ∈ wf) : map_touch p.1 wf = wf := by
  induction wf with
  | nil => cases hp
  | cons q rest ih =>
    obtain ⟨k, c⟩ := q
    rw [List.map_cons, List.pairwise_cons] at hs
    rcases List.mem_cons.mp hp with h | h
    · subst h
      simp [map_touch]
    · have hlt : k < p.1 := hs.1 _ (List.mem_map_of_mem Prod.fst h)
      have hne : p.1 ≠ k := Nat.ne_of_gt hlt
      have hnlt : ¬ p.1 < k := Nat.lt_asymm hlt
      simp only [map_touch, if_neg hne, if_neg hnlt]
      rw [ih hs.2 h]

/-- The cumulative weight grows by the weight of the next entry. -/
theorem cum_weight_succ {R : Type} [LinearOrderedField R] (powf : Int → R)
    (wf : List (w2v_key_t × Int)) (j : Nat) (p : w2v_key_t × Int) (hp : wf[j + 1]? = some p) :
    cum_weight powf wf (j + 1) = cum_weight powf wf j + powf p.2 := by
  unfold cum_weight
  rw [List.take_succ, hp]
  simp

/-- The cumulative weight of the first entry is its weight. -/
theorem cum_weight_zero {R : Type} [LinearOrderedField R] (powf : Int → R)
    (wf : List (w2v_key_t × Int)) (p : w2v_key_t × Int) (hp : wf[0]? = some p) :
    cum_weight powf wf 0 = powf p.2 := by
  unfold cum_weight
  rw [List.take_succ, hp]
  simp

/-- The cumulative weight through the last entry is `train_words_pow`. -/
theorem cum_weight_last {R : Type} [LinearOrderedField R] (powf : Int → R)
    (wf : List (w2v_key_t × Int)) (j : Nat) (hj : wf.length ≤ j + 1) :
    cum_weight powf wf j = train_words_pow powf wf := by
  rw [train_words_pow_eq_sum]
  unfold cum_weight
  rw [List.take_of_length_le hj]

/-- With positive weights `train_words_pow` of a non-empty table is positive. -/
theorem train_words_pow_pos {R : Type} [LinearOrderedField R] (powf : Int → R)
    (wf : List (w2v_key_t × Int)) (hne : wf ≠ []) (hpos : ∀ p ∈ wf, 0 < powf p.2) :
    0 < train_words_pow powf wf := by
  rw [train_words_pow_eq_sum]
  cases wf with
  | nil => exact absurd rfl hne
  | cons q rest =>
    rw [List.map_cons, List.sum_cons]
    have h1 : 0 < powf q.2 := hpos q (List.mem_cons_self _ _)
    have h2 : 0 ≤ (rest.map (fun p => powf p.2)).sum := by
      apply List.sum_nonneg
      intro x hx
      obtain ⟨p, hp, rfl⟩ := List.mem_map.mp hx
      exact le_of_lt (hpos p (List.mem_cons_of_mem _ hp))
    linarith

/-- The keys of a sorted map are pairwise different. -/
theorem keys_nodup (wf : List (w2v_key_t × Int))
    (hs : (wf.map Prod.fst).Pairwise (fun x y => x < y)) : (wf.map Prod.fst).Nodup :=
  hs.imp (fun h => Nat.ne_of_lt h)

/-- Entries of a sorted map with the same key sit at the same index. -/
theorem index_eq_of_key_eq (wf : List (w2v_key_t × Int))
    (hs : (wf.map Prod.fst).Pairwise (fun x y => x < y)) (i j : Nat) (p q : w2v_key_t × Int)
    (hp : wf[i]? = some p) (hq : wf[j]? = some q) (hk : p.1 = q.1) : i = j := by
  have hnd := keys_nodup wf hs
  have hi : i < (wf.map Prod.fst).length := by
    rw [List.length_map]
    exact (List.getElem?_eq_some.mp hp).1
  have hj : j < (wf.map Prod.fst).length := by
    rw [List.length_map]
    exact (List.getElem?_eq_some.mp hq).1
  have e1 : (wf.map Prod.fst)[i] = p.1 := by
    have : (wf.map Prod.fst)[i]? = some p.1 := by simp [List.getElem?_map, hp]
    exact (List.getElem?_eq_some.mp this).2
  have e2 : (wf.map Prod.fst)[j] = q.1 := by
    have : (wf.map Prod.fst)[j]? = some q.1 := by simp [List.getElem?_map, hq]
    exact (List.getElem?_eq_some.mp this).2
  exact (List.Nodup.getElem_inj_iff hnd).mp (by rw [e1, e2, hk])

/-- The cumulative weights are non-negative. -/
theorem cum_weight_nonneg {R : Type} [LinearOrderedField R] (powf : Int → R)
    (wf : List (w2v_key_t × Int)) (hpos : ∀ p ∈ wf, 0 < powf p.2) (j : Nat) :
    0 ≤ cum_weight powf wf j := by
  unfold cum_weight
  apply List.sum_nonneg
  intro x hx
  obtain ⟨p, hp, rfl⟩ := List.mem_map.mp hx
  exact le_of_lt (hpos p (List.mem_of_mem_take hp))

/-- The thresholds are non-negative. -/
theorem threshold_nonneg {R : Type} [LinearOrderedField R] (powf : Int → R) (T : Nat)
    (wf : List (w2v_key_t × Int)) (H : UnigramInput powf T wf) (j : Nat) :
    0 ≤ threshold powf T wf j := by
  unfold threshold
  have hW := train_words_pow_pos powf wf H.nonempty H.weight_pos
  have hc := cum_weight_nonneg powf wf H.weight_pos j
  positivity

/-- Consecutive thresholds are at least one slot apart. -/
theorem threshold_succ {R : Type} [LinearOrderedField R] (powf : Int → R) (T : Nat)
    (wf : List (w2v_key_t × Int)) (H : UnigramInput powf T wf) (j : Nat)
    (hj : j + 1 < wf.length) :
    threshold powf T wf j + 1 ≤ threshold powf T wf (j + 1) := by
  have hp : wf[j + 1]? = some wf[j + 1] := List.getElem?_eq_getElem hj
  unfold threshold
  rw [cum_weight_succ powf wf j _ hp, add_div, mul_add]
  have := H.share wf[j + 1] (List.getElem_mem hj)
  linarith

/-- The thresholds increase with the word index. -/
theorem threshold_mono {R : Type} [LinearOrderedField R] (powf : Int → R) (T : Nat)
    (wf : List (w2v_key_t × Int)) (H : UnigramInput powf T wf) (j k : Nat)
    (hjk : j ≤ k) (hk : k < wf.length) :
    threshold powf T wf j ≤ threshold powf T wf k := by
  induction k with
  | zero =>
    have : j = 0 := Nat.le_zero.mp hjk
    rw [this]
  | succ k ih =>
    rcases Nat.lt_or_ge j (k + 1) with h | h
    · have h1 := ih (Nat.lt_succ_iff.mp h) (Nat.lt_of_succ_lt hk)
      have h2 := threshold_succ powf T wf H k hk
      linarith
    · have : j = k + 1 := le_antisymm hjk h
      rw [this]

/-- The threshold of the last word is the table size. -/
theorem threshold_last {R : Type} [LinearOrderedField R] (powf : Int → R) (T : Nat)
    (wf : List (w2v_key_t × Int)) (H : UnigramInput powf T wf) (j : Nat)
    (hj : wf.length ≤ j + 1) : threshold powf T wf j = (T : R) := by
  unfold threshold
  rw [cum_weight_last powf wf j hj]
  have hW := train_words_pow_pos powf wf H.nonempty H.weight_pos
  rw [div_self (ne_of_gt hW), mul_one]

/-- No threshold exceeds the table size. -/
theorem threshold_le {R : Type} [LinearOrderedField R] (powf : Int → R) (T : Nat)
    (wf : List (w2v_key_t × Int)) (H : UnigramInput powf T wf) (j : Nat)
    (hj : j < wf.length) : threshold powf T wf j ≤ (T : R) := by
  have h1 := threshold_mono powf T wf H j (wf.length - 1) (by omega) (by omega)
  have h2 := threshold_last powf T wf H (wf.length - 1) (by omega)
  linarith

/-- A slot belongs to one word only. -/
theorem slot_of_unique {R : Type} [LinearOrderedField R] (powf : Int → R) (T : Nat)
    (wf : List (w2v_key_t × Int)) (H : UnigramInput powf T wf) (j k a : Nat)
    (hj : j < wf.length) (hk : k < wf.length)
    (h1 : slot_of powf T wf j a) (h2 : slot_of powf T wf k a) : j = k := by
  have key : ∀ x y : Nat, x < y → y < wf.length → slot_of powf T wf x a →
      slot_of powf T wf y a → False := by
    intro x y hxy hy hx1 hy1
    rcases hy1.2 with h0 | h0
    · omega
    · have hm := threshold_mono powf T wf H x (y - 1) (by omega) (by omega)
      have := hx1.1
      linarith
  rcases Nat.lt_trichotomy j k with h | h | h
  · exact absurd (key j k h hk h1 h2) id
  · exact h
  · exact absurd (key k j h hj h2 h1) id

/-- Writing word `i` into slot `a`, one of its slots, keeps the slot counts of all words. -/
theorem counts_step {R : Type} [LinearOrderedField R] (powf : Int → R) (T : Nat)
    (wf : List (w2v_key_t × Int)) (H : UnigramInput powf T wf) (a i : Nat)
    (table : List w2v_key_t) (p : w2v_key_t × Int) (hp : wf[i]? = some p)
    (hslot : slot_of powf T wf i a)
    (hcounts : ∀ j q, wf[j]? = some q →
      table.count q.1 = ((Finset.range a).filter (fun x => slot_of powf T wf j x)).card) :
    ∀ j q, wf[j]? = some q →
      (table ++ [p.1]).count q.1
        = ((Finset.range (a + 1)).filter (fun x => slot_of powf T wf j x)).card := by
  intro j q hq
  have hi : i < wf.length := (List.getElem?_eq_some.mp hp).1
  have hj : j < wf.length := (List.getElem?_eq_some.mp hq).1
  have hnot : a ∉ (Finset.range a).filter (fun x => slot_of powf T wf j x) := by
    simp
  rw [List.count_append, hcounts j q hq, Finset.range_succ, Finset.filter_insert]
  by_cases hji : j = i
  · subst hji
    have hqp : q = p := by
      rw [hp] at hq
      exact (Option.some.inj hq).symm
    rw [if_pos hslot, Finset.card_insert_of_not_mem hnot, hqp]
    simp
  · have hns : ¬ slot_of powf T wf j a := fun h =>
      hji (slot_of_unique powf T wf H j i a hj hi h hslot)
    have hkey : p.1 ≠ q.1 := fun h =>
      hji (index_eq_of_key_eq wf H.sorted i j p q hp hq h).symm
    rw [if_neg hns, List.count_singleton]
    have hb : (p.1 == q.1) = false := by simpa using hkey
    simp [hb]

/-- One iteration of the table loop reads `_wordids` in bounds and keeps the invariant. -/
theorem unigram_step_inv {R : Type} [LinearOrderedField R] (powf : Int → R) (T : Nat)
    (wf : List (w2v_key_t × Int)) (H : UnigramInput powf T wf) (a : Nat) (ha : a < T)
    (st : UnigramState R) (hinv : UnigramInv powf T wf a st) :
    ∃ st1, unigram_step powf T (train_words_pow powf wf) (wf.map Prod.fst) st a = some st1 ∧
      UnigramInv powf T wf (a + 1) st1 := by
  have hW := train_words_pow_pos powf wf H.nonempty H.weight_pos
  have hT : (0 : R) < (T : R) := by exact_mod_cast H.table_pos
  have hi := hinv.i_lt
  have hp : wf[st.i]? = some wf[st.i] := List.getElem?_eq_getElem hi
  have hid : (wf.map Prod.fst)[st.i]? = some wf[st.i].1 := by
    simp [List.getElem?_map, hp]
  have hthr : threshold powf T wf st.i = (T : R) * st.d1 := by
    rw [hinv.d1_eq]
    rfl
  have hcounts := counts_step powf T wf H a st.i st.table wf[st.i] hp hinv.slot hinv.counts
  have hlen : (st.table ++ [wf[st.i].1]).length = a + 1 := by
    rw [List.length_append, hinv.length_eq]
    rfl
  unfold unigram_step
  rw [hid]
  simp only []
  by_cases hcmp : (a : R) / (T : R) > st.d1
  · rw [if_pos hcmp]
    have hlt : threshold powf T wf st.i < (a : R) := by
      rw [hthr]
      have := (lt_div_iff₀ hT).mp hcmp
      linarith
    have hi1 : st.i + 1 < wf.length := by
      by_contra hcon
      have hlast := threshold_last powf T wf H st.i (by omega)
      have haT : (a : R) < (T : R) := by exact_mod_cast ha
      linarith
    have hp1 : wf[st.i + 1]? = some wf[st.i + 1] := List.getElem?_eq_getElem hi1
    have hid1 : (wf.map Prod.fst)[st.i + 1]? = some wf[st.i + 1].1 := by
      simp [List.getElem?_map, hp1]
    have hmem : wf[st.i + 1] ∈ wf := List.getElem_mem hi1
    rw [hid1]
    simp only []
    rw [hinv.word_freq_eq, map_touch_of_mem wf H.sorted _ hmem,
      map_read_of_mem wf (keys_nodup wf H.sorted) _ hmem, if_neg (by omega)]
    refine ⟨_, rfl, ?_⟩
    have hstep := threshold_succ powf T wf H st.i hi1
    refine ⟨rfl, hi1, ?_, ⟨?_, Or.inr ?_⟩, hcounts, hlen⟩
    · show st.d1 + powf wf[st.i + 1].2 / train_words_pow powf wf
        = cum_weight powf wf (st.i + 1) / train_words_pow powf wf
      rw [cum_weight_succ powf wf st.i _ hp1, add_div, hinv.d1_eq]
    · have := hinv.slot.1
      push_cast
      linarith
    · show threshold powf T wf (st.i + 1 - 1) + 1 < ((a + 1 : Nat) : R)
      rw [Nat.add_sub_cancel]
      push_cast
      linarith
  · rw [if_neg hcmp, hinv.word_freq_eq, if_neg (by omega)]
    refine ⟨_, rfl, ?_⟩
    have hle : (a : R) ≤ threshold powf T wf st.i := by
      rw [hthr]
      have := (div_le_iff₀ hT).mp (not_lt.mp hcmp)
      linarith
    refine ⟨rfl, hi, hinv.d1_eq, ⟨?_, ?_⟩, hcounts, hlen⟩
    · show ((a + 1 : Nat) : R) ≤ threshold powf T wf st.i + 1
      push_cast
      linarith
    · rcases hinv.slot.2 with h0 | h0
      · exact Or.inl h0
      · refine Or.inr ?_
        show threshold powf T wf (st.i - 1) + 1 < ((a + 1 : Nat) : R)
        push_cast
        linarith

/-- The table loop from slot `a` to the end succeeds and keeps the invariant. -/
theorem unigram_loop_inv {R : Type} [LinearOrderedField R] (powf : Int → R) (T : Nat)
    (wf : List (w2v_key_t × Int)) (H : UnigramInput powf T wf) (m a : Nat) (ham : a + m = T)
    (st : UnigramState R) (hinv : UnigramInv powf T wf a st) :
    ∃ st1, unigram_loop powf T (train_words_pow powf wf) (wf.map Prod.fst)
        (List.range' a m) st = some st1 ∧ UnigramInv powf T wf T st1 := by
  induction m generalizing a st with
  | zero =>
    have : a = T := by omega
    subst this
    exact ⟨st, rfl, hinv⟩
  | succ m ih =>
    obtain ⟨st1, h1, hinv1⟩ := unigram_step_inv powf T wf H a (by omega) st hinv
    obtain ⟨st2, h2, hinv2⟩ := ih (a + 1) (by omega) st1 hinv1
    refine ⟨st2, ?_, hinv2⟩
    rw [List.range'_succ, unigram_loop, h1]
    exact h2

/-- Under the input conditions `gen_unigram_table` returns a table of `table_size` slots in
which every word holds exactly its slots; the map is unchanged and `_wordids` lists its
keys. -/
theorem gen_unigram_table_slots {R : Type} [LinearOrderedField R] (powf : Int → R) (T : Nat)
    (mb : MiniBatch) (H : UnigramInput powf T mb._word_freq) (hids : mb._wordids = []) :
    ∃ mb1, mb.gen_unigram_table powf T = some mb1 ∧ mb1._table.length = T ∧
      mb1._word_freq = mb._word_freq ∧ mb1._wordids = mb._word_freq.map Prod.fst ∧
      mb1._local_keys = mb._local_keys ∧
      ∀ j p, mb._word_freq[j]? = some p →
        mb1._table.count p.1
          = ((Finset.range T).filter (fun x => slot_of powf T mb._word_freq j x)).card := by
  have hlen : 0 < mb._word_freq.length := List.length_pos.mpr H.nonempty
  have hp0 : mb._word_freq[0]? = some mb._word_freq[0] := List.getElem?_eq_getElem hlen
  have hmem : mb._word_freq[0] ∈ mb._word_freq := List.getElem_mem hlen
  have hid0 : (mb._wordids ++ mb._word_freq.map Prod.fst)[0]? = some mb._word_freq[0].1 := by
    rw [hids, List.nil_append]
    simp [List.getElem?_map, hp0]
  have hinv0 : UnigramInv powf T mb._word_freq 0
      { table := [], i := 0,
        d1 := powf (map_read mb._word_freq[0].1 mb._word_freq)
          / train_words_pow powf mb._word_freq,
        word_freq := map_touch mb._word_freq[0].1 mb._word_freq } := by
    refine ⟨map_touch_of_mem _ H.sorted _ hmem, hlen, ?_, ⟨?_, Or.inl rfl⟩, ?_, rfl⟩
    · show powf (map_read mb._word_freq[0].1 mb._word_freq) / train_words_pow powf mb._word_freq
        = cum_weight powf mb._word_freq 0 / train_words_pow powf mb._word_freq
      rw [map_read_of_mem _ (keys_nodup _ H.sorted) _ hmem,
        cum_weight_zero powf mb._word_freq _ hp0]
    · have := threshold_nonneg powf T mb._word_freq H 0
      push_cast
      linarith
    · intro j p _
      simp
  obtain ⟨st1, h1, hinv1⟩ := unigram_loop_inv powf T mb._word_freq H T 0 (by omega) _ hinv0
  rw [← List.range_eq_range'] at h1
  refine ⟨{ _local_keys := mb._local_keys, _word_freq := st1.word_freq,
            _wordids := mb._wordids ++ mb._word_freq.map Prod.fst, _table := st1.table },
    ?_, hinv1.length_eq, hinv1.word_freq_eq, by rw [hids, List.nil_append], rfl, hinv1.counts⟩
  unfold MiniBatch.gen_unigram_table
  rw [if_neg (by omega)]
  simp only []
  rw [hid0]
  simp only []
  rw [hids, List.nil_append] at *
  rw [h1]

/-- The number of slots of a word differs from `table_size * share` by at most 2. -/
theorem slot_count_bound {R : Type} [LinearOrderedField R] [FloorRing R] (powf : Int → R)
    (T : Nat) (wf : List (w2v_key_t × Int)) (H : UnigramInput powf T wf) (j : Nat)
    (p : w2v_key_t × Int) (hp : wf[j]? = some p) :
    |((((Finset.range T).filter (fun x => slot_of powf T wf j x)).card : Nat) : R)
      - (T : R) * (powf p.2 / train_words_pow powf wf)| ≤ 2 := by
  have hj : j < wf.length := (List.getElem?_eq_some.mp hp).1
  have hTpos := H.table_pos
  have hpmem : p ∈ wf := by
    obtain ⟨hlt, heq⟩ := List.getElem?_eq_some.mp hp
    rw [← heq]
    exact List.getElem_mem hlt
  have hshare := H.share p hpmem
  cases j with
  | zero =>
    have hthr : threshold powf T wf 0 = (T : R) * (powf p.2 / train_words_pow powf wf) := by
      unfold threshold
      rw [cum_weight_zero powf wf p hp]
    have h0 := threshold_nonneg powf T wf H 0
    have hle := threshold_le powf T wf H 0 hj
    have hup : ((Finset.range T).filter (fun x => slot_of powf T wf 0 x)).card
        ≤ ⌊threshold powf T wf 0 + 1⌋₊ + 1 := by
      rw [← Finset.card_range (⌊threshold powf T wf 0 + 1⌋₊ + 1)]
      apply Finset.card_le_card
      intro x hx
      rw [Finset.mem_filter] at hx
      rw [Finset.mem_range]
      exact Nat.lt_succ_of_le (Nat.le_floor hx.2.1)
    have hlo : min (⌊threshold powf T wf 0 + 1⌋₊ + 1) T
        ≤ ((Finset.range T).filter (fun x => slot_of powf T wf 0 x)).card := by
      rw [← Finset.card_range (min (⌊threshold powf T wf 0 + 1⌋₊ + 1) T)]
      apply Finset.card_le_card
      intro x hx
      rw [Finset.mem_range, lt_min_iff] at hx
      rw [Finset.mem_filter, Finset.mem_range]
      refine ⟨hx.2, ?_, Or.inl rfl⟩
      have h1 : (x : R) ≤ (⌊threshold powf T wf 0 + 1⌋₊ : R) := by
        exact_mod_cast Nat.lt_succ_iff.mp hx.1
      exact le_trans h1 (Nat.floor_le (by linarith))
    have hupR : ((((Finset.range T).filter (fun x => slot_of powf T wf 0 x)).card : Nat) : R)
        ≤ threshold powf T wf 0 + 1 + 1 := by
      have h1 : ((((Finset.range T).filter (fun x => slot_of powf T wf 0 x)).card : Nat) : R)
          ≤ ((⌊threshold powf T wf 0 + 1⌋₊ + 1 : Nat) : R) := by exact_mod_cast hup
      have h2 : (⌊threshold powf T wf 0 + 1⌋₊ : R) ≤ threshold powf T wf 0 + 1 :=
        Nat.floor_le (by linarith)
      push_cast at h1
      linarith
    have hloR : threshold powf T wf 0
        ≤ ((((Finset.range T).filter (fun x => slot_of powf T wf 0 x)).card : Nat) : R) := by
      have h1 : ((min (⌊threshold powf T wf 0 + 1⌋₊ + 1) T : Nat) : R)
          ≤ ((((Finset.range T).filter (fun x => slot_of powf T wf 0 x)).card : Nat) : R) := by
        exact_mod_cast hlo
      have h2 : threshold powf T wf 0 + 1 < (⌊threshold powf T wf 0 + 1⌋₊ : R) + 1 :=
        Nat.lt_floor_add_one _
      rcases min_choice (⌊threshold powf T wf 0 + 1⌋₊ + 1) T with hm | hm
      · rw [hm] at h1
        push_cast at h1
        linarith
      · rw [hm] at h1
        linarith
    rw [← hthr, abs_le]
    constructor <;> linarith
  | succ j =>
    have hpj : wf[j + 1]? = some p := hp
    have hthr : threshold powf T wf (j + 1)
        = threshold powf T wf j + (T : R) * (powf p.2 / train_words_pow powf wf) := by
      unfold threshold
      rw [cum_weight_succ powf wf j p hpj, add_div, mul_add]
    have h0 := threshold_nonneg powf T wf H j
    have h1 := threshold_nonneg powf T wf H (j + 1)
    have hle := threshold_le powf T wf H (j + 1) hj
    have hup : ((Finset.range T).filter (fun x => slot_of powf T wf (j + 1) x)).card
        ≤ ⌊threshold powf T wf (j + 1) + 1⌋₊ - ⌊threshold powf T wf j + 1⌋₊ := by
      rw [← Nat.card_Ioc]
      apply Finset.card_le_card
      intro x hx
      rw [Finset.mem_filter] at hx
      rw [Finset.mem_Ioc]
      rcases hx.2.2 with hz | hz
      · omega
      · rw [Nat.add_sub_cancel] at hz
        exact ⟨(Nat.floor_lt (by linarith)).mpr hz, Nat.le_floor hx.2.1⟩
    have hlo : min ⌊threshold powf T wf (j + 1) + 1⌋₊ (T - 1) - ⌊threshold powf T wf j + 1⌋₊
        ≤ ((Finset.range T).filter (fun x => slot_of powf T wf (j + 1) x)).card := by
      rw [← Nat.card_Ioc]
      apply Finset.card_le_card
      intro x hx
      rw [Finset.mem_Ioc, le_min_iff] at hx
      rw [Finset.mem_filter, Finset.mem_range]
      refine ⟨by omega, ?_, Or.inr ?_⟩
      · have h2 : (x : R) ≤ (⌊threshold powf T wf (j + 1) + 1⌋₊ : R) := by
          exact_mod_cast hx.2.1
        exact le_trans h2 (Nat.floor_le (by linarith))
      · rw [Nat.add_sub_cancel]
        exact (Nat.floor_lt (by linarith)).mp hx.1
    have hfl1 : (⌊threshold powf T wf j + 1⌋₊ : R) ≤ threshold powf T wf j + 1 :=
      Nat.floor_le (by linarith)
    have hfl2 : threshold powf T wf j + 1 < (⌊threshold powf T wf j + 1⌋₊ : R) + 1 :=
      Nat.lt_floor_add_one _
    have hfl3 : (⌊threshold powf T wf (j + 1) + 1⌋₊ : R) ≤ threshold powf T wf (j + 1) + 1 :=
      Nat.floor_le (by linarith)
    have hfl4 : threshold powf T wf (j + 1) + 1
        < (⌊threshold powf T wf (j + 1) + 1⌋₊ : R) + 1 := Nat.lt_floor_add_one _
    have hupR : ((((Finset.range T).filter (fun x => slot_of powf T wf (j + 1) x)).card : Nat) : R)
        ≤ (T : R) * (powf p.2 / train_words_pow powf wf) + 1 := by
      rcases le_total ⌊threshold powf T wf j + 1⌋₊ ⌊threshold powf T wf (j + 1) + 1⌋₊
        with hc | hc
      · have h2 : ((((Finset.range T).filter
            (fun x => slot_of powf T wf (j + 1) x)).card : Nat) : R)
            ≤ ((⌊threshold powf T wf (j + 1) + 1⌋₊ - ⌊threshold powf T wf j + 1⌋₊ : Nat) : R) := by
          exact_mod_cast hup
        rw [Nat.cast_sub hc] at h2
        linarith
      · have h2 : ((Finset.range T).filter (fun x => slot_of powf T wf (j + 1) x)).card = 0 := by
          have := Nat.sub_eq_zero_of_le hc
          omega
        rw [h2]
        push_cast
        linarith
    have hloR : (T : R) * (powf p.2 / train_words_pow powf wf) - 2
        ≤ ((((Finset.range T).filter (fun x => slot_of powf T wf (j + 1) x)).card : Nat) : R) := by
      have h2 : ((min ⌊threshold powf T wf (j + 1) + 1⌋₊ (T - 1)
            - ⌊threshold powf T wf j + 1⌋₊ : Nat) : R)
          ≤ ((((Finset.range T).filter (fun x => slot_of powf T wf (j + 1) x)).card : Nat) : R) := by
        exact_mod_cast hlo
      have h3 : ((min ⌊threshold powf T wf (j + 1) + 1⌋₊ (T - 1) : Nat) : R)
          ≤ ((min ⌊threshold powf T wf (j + 1) + 1⌋₊ (T - 1)
            - ⌊threshold powf T wf j + 1⌋₊ : Nat) : R) + (⌊threshold powf T wf j + 1⌋₊ : R) := by
        have : min ⌊threshold powf T wf (j + 1) + 1⌋₊ (T - 1)
            ≤ (min ⌊threshold powf T wf (j + 1) + 1⌋₊ (T - 1) - ⌊threshold powf T wf j + 1⌋₊)
              + ⌊threshold powf T wf j + 1⌋₊ := by omega
        exact_mod_cast this
      have h4 : threshold powf T wf (j + 1) - 1
          ≤ ((min ⌊threshold powf T wf (j + 1) + 1⌋₊ (T - 1) : Nat) : R) := by
        rcases min_choice ⌊threshold powf T wf (j + 1) + 1⌋₊ (T - 1) with hm | hm
        · rw [hm]
          linarith
        · rw [hm, Nat.cast_sub hTpos]
          push_cast
          linarith
      linarith
    rw [abs_le]
    constructor <;> linarith

/-- For two words of equal weight and 4 slots the builder gives all slots to the first. -/
theorem gen_unigram_table_two_equal_words {R : Type} [LinearOrderedField R] (powf : Int → R)
    (h1 : powf 1 = 1) :
    MiniBatch.gen_unigram_table powf 4 ⟨[], [(1, 1), (2, 1)], [], []⟩
      = some ⟨[], [(1, 1), (2, 1)], [1, 2], [1, 1, 1, 1]⟩ := by
  have hr : List.range 4 = [0, 1, 2, 3] := rfl
  norm_num [MiniBatch.gen_unigram_table, train_words_pow, hr, unigram_loop, unigram_step,
    map_read, map_touch, h1]

/-- C4 as stated fails: for the FrequencyTable `{1:1, 2:1}` and 4 slots (shares `1/2`, at
least `1/4`), the table built in exact real arithmetic is `1 1 1 1`, so word 1 holds 4
slots while `T * s(1) = 2`: the difference is 2, not at most 1. -/
theorem unigram_slot_count_exceeds_one :
    (∀ p ∈ ([(1, 1), (2, 1)] : List (w2v_key_t × Int)),
      0 < p.2 ∧ 1 / ((4 : Nat) : ℝ) ≤ ((p.2 : Int) : ℝ) ^ (3 / 4 : ℝ)
        / train_words_pow (fun c : Int => (c : ℝ) ^ (3 / 4 : ℝ)) [(1, 1), (2, 1)]) ∧
    MiniBatch.gen_unigram_table (fun c : Int => (c : ℝ) ^ (3 / 4 : ℝ)) 4
        ⟨[], [(1, 1), (2, 1)], [], []⟩
      = some ⟨[], [(1, 1), (2, 1)], [1, 2], [1, 1, 1, 1]⟩ ∧
    ¬ |((([1, 1, 1, 1] : List w2v_key_t).count 1 : Nat) : ℝ)
        - ((4 : Nat) : ℝ) * (((1 : Int) : ℝ) ^ (3 / 4 : ℝ)
          / train_words_pow (fun c : Int => (c : ℝ) ^ (3 / 4 : ℝ)) [(1, 1), (2, 1)])| ≤ 1 := by
  have hW : train_words_pow (fun c : Int => (c : ℝ) ^ (3 / 4 : ℝ)) [(1, 1), (2, 1)] = 2 := by
    simp [train_words_pow]
    norm_num
  refine ⟨?_, gen_unigram_table_two_equal_words _ (by simp), ?_⟩
  · intro p hp
    rw [hW]
    simp only [List.mem_cons, List.mem_singleton, List.not_mem_nil, or_false] at hp
    rcases hp with rfl | rfl <;> norm_num
  · rw [hW]
    norm_num

/-- Bounds on the weights of the counts 100, 10 and 1. -/
theorem sample_weights :
    (31 : ℝ) < (((100 : Int) : ℝ)) ^ (3 / 4 : ℝ) ∧ (((100 : Int) : ℝ)) ^ (3 / 4 : ℝ) < 32 ∧
    (1 : ℝ) ≤ (((10 : Int) : ℝ)) ^ (3 / 4 : ℝ) ∧ (((10 : Int) : ℝ)) ^ (3 / 4 : ℝ) ≤ 10 ∧
    (((1 : Int) : ℝ)) ^ (3 / 4 : ℝ) = 1 := by
  have hy0 : (0 : ℝ) < (100 : ℝ) ^ (3 / 4 : ℝ) := Real.rpow_pos_of_pos (by norm_num) _
  have hy4 : ((100 : ℝ) ^ (3 / 4 : ℝ)) ^ 4 = 1000000 := by
    rw [← Real.rpow_natCast, ← Real.rpow_mul (by norm_num)]
    norm_num
  have hx : (10 : ℝ) ^ (3 / 4 : ℝ) ≤ 10 := by
    have := Real.rpow_le_rpow_of_exponent_le (by norm_num : (1 : ℝ) ≤ 10)
      (by norm_num : (3 / 4 : ℝ) ≤ 1)
    simpa using this
  have hx1 : (1 : ℝ) ≤ (10 : ℝ) ^ (3 / 4 : ℝ) := Real.one_le_rpow (by norm_num) (by norm_num)
  refine ⟨?_, ?_, by simpa using hx1, by simpa using hx, by simp⟩
  · rw [Int.cast_ofNat]
    by_contra h
    have h2 : ((100 : ℝ) ^ (3 / 4 : ℝ)) ^ 4 ≤ 31 ^ 4 := pow_le_pow_left₀ hy0.le (not_lt.mp h) 4
    rw [hy4] at h2
    norm_num at h2
  · rw [Int.cast_ofNat]
    by_contra h
    have h2 : (32 : ℝ) ^ 4 ≤ ((100 : ℝ) ^ (3 / 4 : ℝ)) ^ 4 :=
      pow_le_pow_left₀ (by norm_num) (not_lt.mp h) 4
    rw [hy4] at h2
    norm_num at h2

/-- The slot counts of the unigram table in real arithmetic. For a non-empty FrequencyTable (a sorted map) with positive
counts, `_wordids` empty on entry and a positive table size `T` such that every share
`s(id) = freq(id)^0.75 / sum of freq^0.75` is at least `1 / T`, `gen_unigram_table` in exact
real arithmetic returns a table of `T` slots in which the number of slots holding `id`
differs from `T * s(id)` by at most 2, so a uniform draw returns `id` with probability
within `2 / T` of `s(id)`. -/
theorem unigram_slot_bound (T : Nat) (mb : MiniBatch)
    (hsorted : (mb._word_freq.map Prod.fst).Pairwise (fun x y => x < y))
    (hne : mb._word_freq ≠ []) (hcount : ∀ p ∈ mb._word_freq, 0 < p.2)
    (hids : mb._wordids = []) (hT : 0 < T)
    (hshare : ∀ p ∈ mb._word_freq, 1 / (T : ℝ) ≤ ((p.2 : Int) : ℝ) ^ (3 / 4 : ℝ)
      / train_words_pow (fun c : Int => (c : ℝ) ^ (3 / 4 : ℝ)) mb._word_freq) :
    ∃ mb1, mb.gen_unigram_table (fun c : Int => (c : ℝ) ^ (3 / 4 : ℝ)) T = some mb1 ∧
      mb1._table.length = T ∧
      ∀ p ∈ mb._word_freq,
        |((mb1._table.count p.1 : Nat) : ℝ) - (T : ℝ) * (((p.2 : Int) : ℝ) ^ (3 / 4 : ℝ)
          / train_words_pow (fun c : Int => (c : ℝ) ^ (3 / 4 : ℝ)) mb._word_freq)| ≤ 2 ∧
        |((mb1._table.count p.1 : Nat) : ℝ) / (T : ℝ) - ((p.2 : Int) : ℝ) ^ (3 / 4 : ℝ)
          / train_words_pow (fun c : Int => (c : ℝ) ^ (3 / 4 : ℝ)) mb._word_freq|
            ≤ 2 / (T : ℝ) := by
  have hTR : (0 : ℝ) < (T : ℝ) := by exact_mod_cast hT
  have H : UnigramInput (fun c : Int => (c : ℝ) ^ (3 / 4 : ℝ)) T mb._word_freq := by
    refine ⟨hsorted, hne, fun p hp => ?_, hT, fun p hp => ?_⟩
    · exact Real.rpow_pos_of_pos (by exact_mod_cast hcount p hp) _
    · have h := mul_le_mul_of_nonneg_left (hshare p hp) hTR.le
      rw [mul_one_div_cancel (ne_of_gt hTR)] at h
      exact h
  obtain ⟨mb1, h1, hlen, _, _, _, hcnt⟩ := gen_unigram_table_slots _ T mb H hids
  refine ⟨mb1, h1, hlen, fun p hp => ?_⟩
  obtain ⟨j, hj⟩ := List.mem_iff_getElem?.mp hp
  have hb := slot_count_bound _ T mb._word_freq H j p hj
  rw [← hcnt j p hj] at hb
  refine ⟨hb, ?_⟩
  have hdiv : ((mb1._table.count p.1 : Nat) : ℝ) / (T : ℝ) - ((p.2 : Int) : ℝ) ^ (3 / 4 : ℝ)
        / train_words_pow (fun c : Int => (c : ℝ) ^ (3 / 4 : ℝ)) mb._word_freq
      = (((mb1._table.count p.1 : Nat) : ℝ) - (T : ℝ) * (((p.2 : Int) : ℝ) ^ (3 / 4 : ℝ)
        / train_words_pow (fun c : Int => (c : ℝ) ^ (3 / 4 : ℝ)) mb._word_freq)) / (T : ℝ) := by
    field_simp
  rw [hdiv, abs_div, abs_of_pos hTR]
  exact (div_le_div_iff_of_pos_right hTR).mpr hb

/-- For a FrequencyTable with the counts 100, 10 and 1 (keys in any order) and at least
1000 slots, the word of count 100 holds between 20 and 40 times as many slots as the word
of count 1. -/
theorem unigram_ratio_example (T : Nat) (hT : 1000 ≤ T) (mb : MiniBatch)
    (hsorted : (mb._word_freq.map Prod.fst).Pairwise (fun x y => x < y))
    (hids : mb._wordids = [])
    (hperm : (mb._word_freq.map Prod.snd).Perm [100, 10, 1])
    (pa pc : w2v_key_t × Int) (hpa : pa ∈ mb._word_freq) (hpc : pc ∈ mb._word_freq)
    (ha : pa.2 = 100) (hc : pc.2 = 1) :
    ∃ mb1, mb.gen_unigram_table (fun c : Int => (c : ℝ) ^ (3 / 4 : ℝ)) T = some mb1 ∧
      20 * mb1._table.count pc.1 ≤ mb1._table.count pa.1 ∧
      mb1._table.count pa.1 ≤ 40 * mb1._table.count pc.1 := by
  obtain ⟨hy1, hy2, hx1, hx2, h1⟩ := sample_weights
  have hTR : (1000 : ℝ) ≤ (T : ℝ) := by exact_mod_cast hT
  have hmem : ∀ p ∈ mb._word_freq, p.2 = 100 ∨ p.2 = 10 ∨ p.2 = 1 := by
    intro p hp
    have h := (hperm.mem_iff).mp (List.mem_map_of_mem Prod.snd hp)
    simpa using h
  have hne : mb._word_freq ≠ [] := List.ne_nil_of_mem hpa
  have hcount : ∀ p ∈ mb._word_freq, 0 < p.2 := by
    intro p hp
    rcases hmem p hp with h | h | h <;> omega
  have hW : train_words_pow (fun c : Int => (c : ℝ) ^ (3 / 4 : ℝ)) mb._word_freq
      = ((100 : Int) : ℝ) ^ (3 / 4 : ℝ) + ((10 : Int) : ℝ) ^ (3 / 4 : ℝ) + 1 := by
    rw [train_words_pow_eq_sum]
    have hmap : mb._word_freq.map (fun p => ((p.2 : Int) : ℝ) ^ (3 / 4 : ℝ))
        = (mb._word_freq.map Prod.snd).map (fun c : Int => (c : ℝ) ^ (3 / 4 : ℝ)) := by
      rw [List.map_map]
      rfl
    rw [hmap, (hperm.map _).sum_eq]
    simp only [List.map_cons, List.map_nil, List.sum_cons, List.sum_nil, h1]
    ring
  have hWle : ((100 : Int) : ℝ) ^ (3 / 4 : ℝ) + ((10 : Int) : ℝ) ^ (3 / 4 : ℝ) + 1 ≤ 43 := by
    linarith
  have hWp : (0 : ℝ) < ((100 : Int) : ℝ) ^ (3 / 4 : ℝ) + ((10 : Int) : ℝ) ^ (3 / 4 : ℝ) + 1 := by
    linarith
  have hshare : ∀ p ∈ mb._word_freq, 1 / (T : ℝ) ≤ ((p.2 : Int) : ℝ) ^ (3 / 4 : ℝ)
      / train_words_pow (fun c : Int => (c : ℝ) ^ (3 / 4 : ℝ)) mb._word_freq := by
    intro p hp
    rw [hW, div_le_div_iff₀ (by linarith) hWp]
    rcases hmem p hp with h | h | h <;> rw [h] <;> nlinarith
  obtain ⟨mb1, hm, _, hb⟩ := unigram_slot_bound T mb hsorted hne hcount hids (by omega) hshare
  have hb1 := (hb pa hpa).1
  have hb3 := (hb pc hpc).1
  refine ⟨mb1, hm, ?_⟩
  rw [hW, ha, abs_le] at hb1
  rw [hW, hc, h1, abs_le] at hb3
  have hu : (20 : ℝ) ≤ (T : ℝ)
      / (((100 : Int) : ℝ) ^ (3 / 4 : ℝ) + ((10 : Int) : ℝ) ^ (3 / 4 : ℝ) + 1) := by
    rw [le_div_iff₀ hWp]
    linarith
  have e1 : (T : ℝ) * (((100 : Int) : ℝ) ^ (3 / 4 : ℝ)
        / (((100 : Int) : ℝ) ^ (3 / 4 : ℝ) + ((10 : Int) : ℝ) ^ (3 / 4 : ℝ) + 1))
      = ((100 : Int) : ℝ) ^ (3 / 4 : ℝ) * ((T : ℝ)
        / (((100 : Int) : ℝ) ^ (3 / 4 : ℝ) + ((10 : Int) : ℝ) ^ (3 / 4 : ℝ) + 1)) := by ring
  have e3 : (T : ℝ)
        * (1 / (((100 : Int) : ℝ) ^ (3 / 4 : ℝ) + ((10 : Int) : ℝ) ^ (3 / 4 : ℝ) + 1))
      = (T : ℝ)
        / (((100 : Int) : ℝ) ^ (3 / 4 : ℝ) + ((10 : Int) : ℝ) ^ (3 / 4 : ℝ) + 1) := by ring
  rw [e1] at hb1
  rw [e3] at hb3
  generalize (T : ℝ)
      / (((100 : Int) : ℝ) ^ (3 / 4 : ℝ) + ((10 : Int) : ℝ) ^ (3 / 4 : ℝ) + 1) = u at hb1 hb3 hu
  generalize ((100 : Int) : ℝ) ^ (3 / 4 : ℝ) = y at hb1 hy1 hy2
  constructor
  · have : (20 : ℝ) * ((mb1._table.count pc.1 : Nat) : ℝ)
        ≤ ((mb1._table.count pa.1 : Nat) : ℝ) := by
      nlinarith
    exact_mod_cast this
  · have : ((mb1._table.count pa.1 : Nat) : ℝ)
        ≤ (40 : ℝ) * ((mb1._table.count pc.1 : Nat) : ℝ) := by
      nlinarith [mul_nonneg (sub_nonneg.mpr hy2.le) (sub_nonneg.mpr hu)]
    exact_mod_cast this

/-- C4, as the code has it. For a non-empty FrequencyTable (a sorted map) with positive
counts, `_wordids` empty on entry and a positive table size `T` such that every share
`s(id) = freq(id)^0.75 / sum of freq^0.75` is at least `1 / T`, `gen_unigram_table` in exact
real arithmetic returns a table of `T` slots in which the number of slots holding `id`
differs from `T * s(id)` by at most 2, so a uniform draw returns `id` with probability
within `2 / T` of `s(id)`. -/
theorem unigram_fidelity (T : Nat) (mb : MiniBatch)
    (hsorted : (mb._word_freq.map Prod.fst).Pairwise (fun x y => x < y))
    (hne : mb._word_freq ≠ []) (hcount : ∀ p ∈ mb._word_freq, 0 < p.2)
    (hids : mb._wordids = []) (hT : 0 < T)
    (hshare : ∀ p ∈ mb._word_freq, 1 / (T : ℝ) ≤ ((p.2 : Int) : ℝ) ^ (3 / 4 : ℝ)
      / train_words_pow (fun c : Int => (c : ℝ) ^ (3 / 4 : ℝ)) mb._word_freq) :
    ∃ mb1, mb.gen_unigram_table (fun c : Int => (c : ℝ) ^ (3 / 4 : ℝ)) T = some mb1 ∧
      mb1._table.length = T ∧
      ∀ p ∈ mb._word_freq,
        |((mb1._table.count p.1 : Nat) : ℝ) - (T : ℝ) * (((p.2 : Int) : ℝ) ^ (3 / 4 : ℝ)
          / train_words_pow (fun c : Int => (c : ℝ) ^ (3 / 4 : ℝ)) mb._word_freq)| ≤ 2 ∧
        |((mb1._table.count p.1 : Nat) : ℝ) / (T : ℝ) - ((p.2 : Int) : ℝ) ^ (3 / 4 : ℝ)
          / train_words_pow (fun c : Int => (c : ℝ) ^ (3 / 4 : ℝ)) mb._word_freq|
            ≤ 2 / (T : ℝ) :=
  unigram_slot_bound T mb hsorted hne hcount hids hT hshare

/-- C4 applied to the FrequencyTable `{1:100, 2:10, 3:1}` with the table size `10^8` of the
source: every share is at least `1 / 10^8`, the table is built, every slot count is within
2 of `T * s(id)`, and word 1 holds between 20 and 40 times as many slots as word 3. -/
theorem unigram_fidelity_witness :
    (∀ p ∈ ([(1, 100), (2, 10), (3, 1)] : List (w2v_key_t × Int)),
      0 < p.2 ∧ 1 / ((10 ^ 8 : Nat) : ℝ) ≤ ((p.2 : Int) : ℝ) ^ (3 / 4 : ℝ)
        / train_words_pow (fun c : Int => (c : ℝ) ^ (3 / 4 : ℝ))
            [(1, 100), (2, 10), (3, 1)]) ∧
    ∃ mb1, MiniBatch.gen_unigram_table (fun c : Int => (c : ℝ) ^ (3 / 4 : ℝ)) (10 ^ 8)
        ⟨[], [(1, 100), (2, 10), (3, 1)], [], []⟩ = some mb1 ∧
      mb1._table.length = 10 ^ 8 ∧
      (∀ p ∈ ([(1, 100), (2, 10), (3, 1)] : List (w2v_key_t × Int)),
        |((mb1._table.count p.1 : Nat) : ℝ) - ((10 ^ 8 : Nat) : ℝ) * (((p.2 : Int) : ℝ) ^ (3 / 4 : ℝ)
          / train_words_pow (fun c : Int => (c : ℝ) ^ (3 / 4 : ℝ))
              [(1, 100), (2, 10), (3, 1)])| ≤ 2) ∧
      20 * mb1._table.count 3 ≤ mb1._table.count 1 ∧
      mb1._table.count 1 ≤ 40 * mb1._table.count 3 := by
  obtain ⟨hy1, hy2, hx1, hx2, h1⟩ := sample_weights
  have hW : train_words_pow (fun c : Int => (c : ℝ) ^ (3 / 4 : ℝ))
      [(1, 100), (2, 10), (3, 1)]
      = ((100 : Int) : ℝ) ^ (3 / 4 : ℝ) + ((10 : Int) : ℝ) ^ (3 / 4 : ℝ)
        + ((1 : Int) : ℝ) ^ (3 / 4 : ℝ) := by
    simp [train_words_pow]
  have hWpos : (0 : ℝ) < ((100 : Int) : ℝ) ^ (3 / 4 : ℝ) + ((10 : Int) : ℝ) ^ (3 / 4 : ℝ)
        + ((1 : Int) : ℝ) ^ (3 / 4 : ℝ) := by linarith
  have hshare : ∀ p ∈ ([(1, 100), (2, 10), (3, 1)] : List (w2v_key_t × Int)),
      1 / ((10 ^ 8 : Nat) : ℝ) ≤ ((p.2 : Int) : ℝ) ^ (3 / 4 : ℝ)
        / train_words_pow (fun c : Int => (c : ℝ) ^ (3 / 4 : ℝ))
            [(1, 100), (2, 10), (3, 1)] := by
    intro p hp
    rw [hW, div_le_div_iff₀ (by positivity) hWpos]
    simp only [List.mem_cons, List.mem_singleton, List.not_mem_nil, or_false] at hp
    push_cast
    rcases hp with rfl | rfl | rfl <;> simp only [] <;> nlinarith
  obtain ⟨mb1, hm, hlen, hb⟩ := unigram_fidelity (10 ^ 8)
    ⟨[], [(1, 100), (2, 10), (3, 1)], [], []⟩ (by decide) (by decide) (by decide) rfl
    (by norm_num) hshare
  obtain ⟨mb2, hm2, hr1, hr2⟩ := unigram_ratio_example (10 ^ 8) (by norm_num)
    ⟨[], [(1, 100), (2, 10), (3, 1)], [], []⟩ (by decide) rfl (List.Perm.refl _)
    (1, 100) (3, 1) (by simp) (by simp) rfl rfl
  have hsame : mb2 = mb1 := by
    rw [hm] at hm2
    exact (Option.some.inj hm2).symm
  rw [hsame] at hr1 hr2
  exact ⟨fun p hp => ⟨by revert p; decide, hshare p hp⟩,
    mb1, hm, hlen, fun p hp => (hb p hp).1, hr1, hr2⟩

/-! ### The sigmoid table -/

/-- Filling the entries `0 .. n-1` of an empty array one by one. -/
theorem fill_range_apply {V : Type} (g : Nat → V) (n j : Nat) :
    ((List.range n).foldl (fun (table : Nat → Option V) (i : Nat) =>
      Function.update table i (some (g i))) (fun _ => none)) j
      = if j < n then some (g j) else none := by
  induction n with
  | zero => simp
  | succ n ih =>
    rw [List.range_succ, List.foldl_append, List.foldl_cons, List.foldl_nil]
    by_cases hj : j = n
    · subst hj
      simp
    · rw [Function.update_noteq hj, ih]
      by_cases hlt : j < n
      · rw [if_pos hlt, if_pos (by omega)]
      · rw [if_neg hlt, if_neg (by omega)]

/-- The constructor of `ExpTable` fills exactly the entries below `EXP_TABLE_SIZE`. -/
theorem exptable_new_apply {R : Type} [Field R] (expf : R → R) (j : Nat) :
    ExpTable.new expf j
      = if j < EXP_TABLE_SIZE then
          some (expf (((j : R) / (EXP_TABLE_SIZE : R) * 2 - 1) * (MAX_EXP : R))
            / (expf (((j : R) / (EXP_TABLE_SIZE : R) * 2 - 1) * (MAX_EXP : R)) + 1))
        else none :=
  fill_range_apply (fun i => expf (((i : R) / (EXP_TABLE_SIZE : R) * 2 - 1) * (MAX_EXP : R))
    / (expf (((i : R) / (EXP_TABLE_SIZE : R) * 2 - 1) * (MAX_EXP : R)) + 1)) EXP_TABLE_SIZE j

/-- For `-6 <= f <= 6` the index computed by `ExpTable::operator()` lies in `[0, 996]` and is
the floor of `(f + 6) * 83`. -/
theorem exptable_index_range {R : Type} [LinearOrderedField R] [FloorRing R] (f : R)
    (hlo : -6 ≤ f) (hhi : f ≤ 6) :
    ExpTable.index f = ⌊(f + 6) * 83⌋ ∧ 0 ≤ ExpTable.index f ∧ ExpTable.index f ≤ 996 := by
  have hx : (f + (MAX_EXP : R)) * ((EXP_TABLE_SIZE / MAX_EXP / 2 : Nat) : R) = (f + 6) * 83 := by
    have h83 : EXP_TABLE_SIZE / MAX_EXP / 2 = 83 := by decide
    rw [h83]
    simp [MAX_EXP]
  have h0 : (0 : R) ≤ (f + 6) * 83 := by nlinarith
  have h1 : (f + 6) * 83 ≤ 996 := by nlinarith
  have hidx : ExpTable.index f = ⌊(f + 6) * 83⌋ := by
    simp only [ExpTable.index, hx, if_pos h0]
  rw [hidx]
  refine ⟨rfl, Int.floor_nonneg.mpr h0, ?_⟩
  have h2 : ((⌊(f + 6) * 83⌋ : Int) : R) ≤ 996 := le_trans (Int.floor_le _) h1
  exact_mod_cast h2

/-- The scoring step reads the sigmoid table only at the entries `0 .. 996`: two
configurations that differ in `exptable` outside these entries score alike. -/
theorem score_target_reads_filled_entries {R : Type} [LinearOrderedField R] [FloorRing R]
    {n : Nat} (w : Word2Vec R n) (exptable2 : Nat → R)
    (hsame : ∀ i, i ≤ 996 → w.exptable i = exptable2 i)
    (target : w2v_key_t) (label : R) (st : KernelState R n) :
    score_target w target label st
      = score_target { w with exptable := exptable2 } target label st := by
  simp only [score_target]
  by_cases h1 : (0 : R) + Vec.dot st.neu1 (w.params target).h > (MAX_EXP : R)
  · simp only [if_pos h1]
  · by_cases h2 : (0 : R) + Vec.dot st.neu1 (w.params target).h < -(MAX_EXP : R)
    · simp only [if_neg h1, if_pos h2]
    · have hM : ((MAX_EXP : Nat) : R) = 6 := by simp [MAX_EXP]
      rw [hM] at h1 h2
      obtain ⟨_, hr0, hr1⟩ := exptable_index_range ((0 : R) + Vec.dot st.neu1 (w.params target).h)
        (not_lt.mp h2) (not_lt.mp h1)
      have hcall : ExpTable.call w.exptable ((0 : R) + Vec.dot st.neu1 (w.params target).h)
          = ExpTable.call exptable2 ((0 : R) + Vec.dot st.neu1 (w.params target).h) := by
        unfold ExpTable.call
        apply hsame
        omega
      rw [hM]
      simp only [if_neg h1, if_neg h2, hcall]

/-- C14. Sigmoid lookup stays inside the initialised table: for every `f` with
`-6 <= f <= 6` the index `(int)((f + MAX_EXP) * (EXP_TABLE_SIZE / MAX_EXP / 2))` (factor 83)
lies in `[0, 996]`, at an entry that the constructor fills (entry 1000 stays unfilled), and
the value returned from a table holding the constructor's entries is
`sigmoid((2 * index / 1000 - 1) * 6)`, in real arithmetic; `learn_instance` reads the table
at no other entry. -/
theorem sigmoid_lookup_in_table (f : ℝ) (hlo : -6 ≤ f) (hhi : f ≤ 6) :
    ExpTable.index f = ⌊(f + 6) * 83⌋ ∧
    0 ≤ ExpTable.index f ∧ ExpTable.index f ≤ 996 ∧
    (ExpTable.index f).toNat < EXP_TABLE_SIZE ∧
    ExpTable.new Real.exp EXP_TABLE_SIZE = none ∧
    ExpTable.new Real.exp (ExpTable.index f).toNat
      = some (1 / (1 + Real.exp (-((2 * ((ExpTable.index f : Int) : ℝ) / 1000 - 1) * 6)))) ∧
    (∀ _table : Nat → ℝ, (∀ i v, ExpTable.new Real.exp i = some v → _table i = v) →
      ExpTable.call _table f
        = 1 / (1 + Real.exp (-((2 * ((ExpTable.index f : Int) : ℝ) / 1000 - 1) * 6)))) ∧
    (∀ (n : Nat) (w : Word2Vec ℝ n) (exptable2 : Nat → ℝ),
      (∀ i, i ≤ 996 → w.exptable i = exptable2 i) →
      ∀ (target : w2v_key_t) (label : ℝ) (st : KernelState ℝ n),
        score_target w target label st
          = score_target { w with exptable := exptable2 } target label st) := by
  obtain ⟨hidx, h0, h1⟩ := exptable_index_range f hlo hhi
  have hlt : (ExpTable.index f).toNat < EXP_TABLE_SIZE := by
    have : EXP_TABLE_SIZE = 1000 := rfl
    omega
  have hcast : (((ExpTable.index f).toNat : Nat) : ℝ) = ((ExpTable.index f : Int) : ℝ) := by
    have h := Int.toNat_of_nonneg h0
    exact_mod_cast congrArg (fun z : Int => (z : ℝ)) h
  have hval : ExpTable.new Real.exp (ExpTable.index f).toNat
      = some (1 / (1 + Real.exp (-((2 * ((ExpTable.index f : Int) : ℝ) / 1000 - 1) * 6)))) := by
    rw [exptable_new_apply, if_pos hlt, hcast]
    have hE : ((EXP_TABLE_SIZE : Nat) : ℝ) = 1000 := by simp [EXP_TABLE_SIZE]
    have hM : ((MAX_EXP : Nat) : ℝ) = 6 := by simp [MAX_EXP]
    rw [hE, hM]
    have harg : (((ExpTable.index f : Int) : ℝ) / 1000 * 2 - 1) * 6
        = (2 * ((ExpTable.index f : Int) : ℝ) / 1000 - 1) * 6 := by ring
    rw [harg, Real.exp_neg]
    have hpos := Real.exp_pos ((2 * ((ExpTable.index f : Int) : ℝ) / 1000 - 1) * 6)
    congr 1
    field_simp
  refine ⟨hidx, h0, h1, hlt, ?_, hval, ?_, ?_⟩
  · rw [exptable_new_apply, if_neg (lt_irrefl _)]
  · intro _table htab
    unfold ExpTable.call
    exact htab _ _ hval
  · intro n w exptable2 hsame target label st
    exact score_target_reads_filled_entries w exptable2 hsame target label st

/-- C14 applied to `f = 0`: the index is 498 and the entry read is `sigmoid(-0.024)`. -/
theorem sigmoid_lookup_in_table_witness :
    ((-6 : ℝ) ≤ 0 ∧ (0 : ℝ) ≤ 6) ∧ ExpTable.index (0 : ℝ) = 498 ∧
    ExpTable.new Real.exp (ExpTable.index (0 : ℝ)).toNat
      = some (1 / (1 + Real.exp (-((2 * ((ExpTable.index (0 : ℝ) : Int) : ℝ) / 1000 - 1) * 6)))) := by
  obtain ⟨hidx, _, _, _, _, hval, _⟩ :=
    sigmoid_lookup_in_table 0 (by norm_num) (by norm_num)
  refine ⟨⟨by norm_num, by norm_num⟩, ?_, hval⟩
  rw [hidx]
  norm_num

/-! ### Line counting in the linear model -/

/-- The table loop over a list of slots followed by one more slot. -/
theorem unigram_loop_append {R : Type} [LinearOrderedField R] (powf : Int → R) (T : Nat)
    (W : R) (wordids : List w2v_key_t) (l : List Nat) (x : Nat) (st : UnigramState R) :
    unigram_loop powf T W wordids (l ++ [x]) st
      = match unigram_loop powf T W wordids l st with
        | none => none
        | some st1 => unigram_step powf T W wordids st1 x := by
  induction l generalizing st with
  | nil =>
    simp only [List.nil_append, unigram_loop]
    cases unigram_step powf T W wordids st x <;> rfl
  | cons y ys ih =>
    simp only [List.cons_append, unigram_loop]
    cases unigram_step powf T W wordids st y with
    | none => rfl
    | some st1 => exact ih st1

/-- The keys of a sorted map increase with the index. -/
theorem key_lt_of_index_lt (wf : List (w2v_key_t × Int))
    (hs : (wf.map Prod.fst).Pairwise (fun x y => x < y)) (i j : Nat) (p q : w2v_key_t × Int)
    (hp : wf[i]? = some p) (hq : wf[j]? = some q) (hij : i < j) : p.1 < q.1 := by
  have hi : i < (wf.map Prod.fst).length := by
    rw [List.length_map]
    exact (List.getElem?_eq_some.mp hp).1
  have hj : j < (wf.map Prod.fst).length := by
    rw [List.length_map]
    exact (List.getElem?_eq_some.mp hq).1
  have e1 : (wf.map Prod.fst)[i] = p.1 := by
    have : (wf.map Prod.fst)[i]? = some p.1 := by simp [List.getElem?_map, hp]
    exact (List.getElem?_eq_some.mp this).2
  have e2 : (wf.map Prod.fst)[j] = q.1 := by
    have : (wf.map Prod.fst)[j]? = some q.1 := by simp [List.getElem?_map, hq]
    exact (List.getElem?_eq_some.mp this).2
  have h := List.pairwise_iff_getElem.mp hs i j hi hj hij
  rw [e1, e2] at h
  exact h

/-- One iteration of the table loop, for positive weights and any shares: the word index
is incremented only when a next word exists, both reads of `_wordids` are in bounds, the
map is not changed and the slot written continues the ascending table. -/
theorem unigram_step_bounds {R : Type} [LinearOrderedField R] (powf : Int → R) (T : Nat)
    (wf : List (w2v_key_t × Int)) (hs : (wf.map Prod.fst).Pairwise (fun x y => x < y))
    (hne : wf ≠ []) (hpos : ∀ p ∈ wf, 0 < powf p.2) (a : Nat) (ha : a < T)
    (st : UnigramState R) (hb : UnigramBounds powf wf st) :
    ((a : R) / (T : R) > st.d1 → st.i + 1 < wf.length) ∧
    ∃ st1, unigram_step powf T (train_words_pow powf wf) (wf.map Prod.fst) st a = some st1 ∧
      UnigramBounds powf wf st1 ∧ st1.table.length = st.table.length + 1 := by
  have hW := train_words_pow_pos powf wf hne hpos
  have hT : (0 : R) < (T : R) := by
    have : 0 < T := by omega
    exact_mod_cast this
  have hi := hb.i_lt
  have hp : wf[st.i]? = some wf[st.i] := List.getElem?_eq_getElem hi
  have hid : (wf.map Prod.fst)[st.i]? = some wf[st.i].1 := by
    simp [List.getElem?_map, hp]
  have hinc : (a : R) / (T : R) > st.d1 → st.i + 1 < wf.length := by
    intro hcmp
    by_contra hcon
    have hd1 : st.d1 = 1 := by
      rw [hb.d1_eq, cum_weight_last powf wf st.i (by omega), div_self (ne_of_gt hW)]
    have haT : (a : R) < (T : R) := by exact_mod_cast ha
    have hlt : (a : R) / (T : R) < 1 := (div_lt_one hT).mpr haT
    rw [hd1] at hcmp
    exact absurd hcmp (not_lt.mpr hlt.le)
  have hmem1 : ∀ x ∈ st.table ++ [wf[st.i].1], x ∈ wf.map Prod.fst := by
    intro x hx
    rcases List.mem_append.mp hx with h | h
    · exact hb.mem_keys x h
    · rw [List.mem_singleton] at h
      rw [h]
      exact List.mem_map_of_mem Prod.fst (List.getElem_mem hi)
  have hasc1 : (st.table ++ [wf[st.i].1]).Pairwise (fun x y => x ≤ y) := by
    rw [List.pairwise_append]
    refine ⟨hb.ascending, List.pairwise_singleton _ _, ?_⟩
    intro x hx y hy
    rw [List.mem_singleton] at hy
    rw [hy]
    exact hb.le_current _ hp x hx
  have hlen1 : (st.table ++ [wf[st.i].1]).length = st.table.length + 1 := by
    rw [List.length_append]
    rfl
  refine ⟨hinc, ?_⟩
  unfold unigram_step
  rw [hid]
  simp only []
  by_cases hcmp : (a : R) / (T : R) > st.d1
  · rw [if_pos hcmp]
    have hi1 := hinc hcmp
    have hp1 : wf[st.i + 1]? = some wf[st.i + 1] := List.getElem?_eq_getElem hi1
    have hid1 : (wf.map Prod.fst)[st.i + 1]? = some wf[st.i + 1].1 := by
      simp [List.getElem?_map, hp1]
    have hmem : wf[st.i + 1] ∈ wf := List.getElem_mem hi1
    rw [hid1]
    simp only []
    rw [hb.word_freq_eq, map_touch_of_mem wf hs _ hmem,
      map_read_of_mem wf (keys_nodup wf hs) _ hmem, if_neg (by omega)]
    refine ⟨_, rfl, ⟨rfl, hi1, ?_, hmem1, hasc1, ?_⟩, hlen1⟩
    · show st.d1 + powf wf[st.i + 1].2 / train_words_pow powf wf
        = cum_weight powf wf (st.i + 1) / train_words_pow powf wf
      rw [cum_weight_succ powf wf st.i _ hp1, add_div, hb.d1_eq]
    · intro q hq x hx
      have hq1 : wf[st.i + 1]? = some q := hq
      have hlt := key_lt_of_index_lt wf hs st.i (st.i + 1) _ q hp hq1 (by omega)
      rcases List.mem_append.mp hx with h | h
      · exact le_trans (hb.le_current _ hp x h) (Nat.le_of_lt hlt)
      · rw [List.mem_singleton] at h
        rw [h]
        exact Nat.le_of_lt hlt
  · rw [if_neg hcmp, hb.word_freq_eq, if_neg (by omega)]
    refine ⟨_, rfl, ⟨rfl, hi, hb.d1_eq, hmem1, hasc1, ?_⟩, hlen1⟩
    intro q hq x hx
    have hq1 : wf[st.i]? = some q := hq
    rcases List.mem_append.mp hx with h | h
    · exact hb.le_current q hq1 x h
    · rw [List.mem_singleton] at h
      rw [h]
      rw [hp] at hq1
      rw [← Option.some.inj hq1]

/-- The table builder returns the table of the loop state reached after `table_size`
iterations. -/
theorem gen_unigram_table_eq_state_at {R : Type} [LinearOrderedField R] (powf : Int → R)
    (T : Nat) (mb : MiniBatch) :
    mb.gen_unigram_table powf T
      = (unigram_state_at powf T mb T).map (fun st =>
          { _local_keys := mb._local_keys, _word_freq := st.word_freq,
            _wordids := mb._wordids ++ mb._word_freq.map Prod.fst, _table := st.table }) := by
  unfold MiniBatch.gen_unigram_table unigram_state_at
  by_cases h0 : mb._word_freq.length = 0
  · simp only [if_pos h0, Option.map_none']
  · simp only [if_neg h0]
    cases (mb._wordids ++ mb._word_freq.map Prod.fst)[0]? with
    | none => rfl
    | some w0 =>
      simp only []
      cases unigram_loop powf T (train_words_pow powf mb._word_freq)
        (mb._wordids ++ mb._word_freq.map Prod.fst) (List.range T)
        { table := [], i := 0,
          d1 := powf (map_read w0 mb._word_freq) / train_words_pow powf mb._word_freq,
          word_freq := map_touch w0 mb._word_freq } <;> rfl

/-- Before every iteration `a <= table_size` the loop state exists (no read of `_wordids`
was out of bounds) and satisfies the bounds invariant, with `a` slots written. -/
theorem unigram_state_at_bounds {R : Type} [LinearOrderedField R] (powf : Int → R) (T : Nat)
    (mb : MiniBatch) (hs : (mb._word_freq.map Prod.fst).Pairwise (fun x y => x < y))
    (hne : mb._word_freq ≠ []) (hpos : ∀ p ∈ mb._word_freq, 0 < powf p.2)
    (hids : mb._wordids = []) (a : Nat) (ha : a ≤ T) :
    ∃ st, unigram_state_at powf T mb a = some st ∧ UnigramBounds powf mb._word_freq st ∧
      st.table.length = a := by
  have hlen : 0 < mb._word_freq.length := List.length_pos.mpr hne
  have hp0 : mb._word_freq[0]? = some mb._word_freq[0] := List.getElem?_eq_getElem hlen
  have hmem : mb._word_freq[0] ∈ mb._word_freq := List.getElem_mem hlen
  have hid0 : (mb._wordids ++ mb._word_freq.map Prod.fst)[0]? = some mb._word_freq[0].1 := by
    rw [hids, List.nil_append]
    simp [List.getElem?_map, hp0]
  have hunf : ∀ b, unigram_state_at powf T mb b
      = unigram_loop powf T (train_words_pow powf mb._word_freq) (mb._word_freq.map Prod.fst)
          (List.range b)
          { table := [], i := 0,
            d1 := powf (map_read mb._word_freq[0].1 mb._word_freq)
              / train_words_pow powf mb._word_freq,
            word_freq := map_touch mb._word_freq[0].1 mb._word_freq } := by
    intro b
    unfold unigram_state_at
    rw [if_neg (by omega)]
    simp only []
    rw [hid0]
    simp only []
    rw [hids, List.nil_append]
  induction a with
  | zero =>
    rw [hunf 0]
    refine ⟨_, rfl, ⟨map_touch_of_mem _ hs _ hmem, hlen, ?_, ?_, List.Pairwise.nil, ?_⟩, rfl⟩
    · show powf (map_read mb._word_freq[0].1 mb._word_freq) / train_words_pow powf mb._word_freq
        = cum_weight powf mb._word_freq 0 / train_words_pow powf mb._word_freq
      rw [map_read_of_mem _ (keys_nodup _ hs) _ hmem, cum_weight_zero powf mb._word_freq _ hp0]
    · intro x hx
      cases hx
    · intro p _ x hx
      cases hx
  | succ a ih =>
    obtain ⟨st, hst, hb, hl⟩ := ih (by omega)
    obtain ⟨_, st1, hstep, hb1, hl1⟩ :=
      unigram_step_bounds powf T mb._word_freq hs hne hpos a (by omega) st hb
    refine ⟨st1, ?_, hb1, by omega⟩
    rw [hunf (a + 1), List.range_succ, unigram_loop_append, ← hunf a, hst]
    exact hstep

/-- In an ascending list equal entries form a contiguous run. -/
theorem ascending_runs (l : List w2v_key_t) (hl : l.Pairwise (fun x y => x ≤ y))
    (i j k : Nat) (hij : i ≤ j) (hjk : j ≤ k) (hk : k < l.length) (heq : l[i]? = l[k]?) :
    l[j]? = l[i]? := by
  have hi : i < l.length := by omega
  have hj : j < l.length := by omega
  rw [List.getElem?_eq_getElem hi, List.getElem?_eq_getElem hk] at heq
  rw [List.getElem?_eq_getElem hi, List.getElem?_eq_getElem hj]
  have hik : l[i] = l[k] := Option.some.inj heq
  have h1 : l[i] ≤ l[j] := by
    rcases Nat.lt_or_ge i j with h | h
    · exact List.pairwise_iff_getElem.mp hl i j hi hj h
    · have : i = j := by omega
      subst this
      exact le_refl _
  have h2 : l[j] ≤ l[k] := by
    rcases Nat.lt_or_ge j k with h | h
    · exact List.pairwise_iff_getElem.mp hl j k hj hk h
    · have : j = k := by omega
      subst this
      exact le_refl _
  have h3 : l[j] ≤ l[i] := by
    rw [hik]
    exact h2
  exact congrArg some (le_antisymm h3 h1)

/-- C13. Unigram table build stays in bounds: for a non-empty FrequencyTable (a sorted map)
with positive counts and `_wordids` empty on entry, in exact real arithmetic the loop of
`gen_unigram_table` reaches every iteration `a` with a word index `i` below the number of
ids and the map unchanged, increments `i` only when `i + 1` is still below that number (so
the read after `i++` is in bounds and the clamp never fires), and returns a table of
`table_size` slots that hold ids of the FrequencyTable in ascending order, each id in one
contiguous run. -/
theorem unigram_table_in_bounds (T : Nat) (mb : MiniBatch)
    (hsorted : (mb._word_freq.map Prod.fst).Pairwise (fun x y => x < y))
    (hne : mb._word_freq ≠ []) (hcount : ∀ p ∈ mb._word_freq, 0 < p.2)
    (hids : mb._wordids = []) :
    (∀ a, a ≤ T → ∃ st, unigram_state_at (fun c : Int => (c : ℝ) ^ (3 / 4 : ℝ)) T mb a = some st ∧
      st.i < mb._word_freq.length ∧ st.word_freq = mb._word_freq ∧
      (a < T → (a : ℝ) / (T : ℝ) > st.d1 → st.i + 1 < mb._word_freq.length)) ∧
    ∃ mb1, mb.gen_unigram_table (fun c : Int => (c : ℝ) ^ (3 / 4 : ℝ)) T = some mb1 ∧
      mb1._word_freq = mb._word_freq ∧ mb1._table.length = T ∧
      (∀ x ∈ mb1._table, x ∈ mb._word_freq.map Prod.fst) ∧
      mb1._table.Pairwise (fun x y => x ≤ y) ∧
      (∀ i j k, i ≤ j → j ≤ k → k < mb1._table.length → mb1._table[i]? = mb1._table[k]? →
        mb1._table[j]? = mb1._table[i]?) := by
  have hpos : ∀ p ∈ mb._word_freq, (0 : ℝ) < ((p.2 : Int) : ℝ) ^ (3 / 4 : ℝ) :=
    fun p hp => Real.rpow_pos_of_pos (by exact_mod_cast hcount p hp) _
  constructor
  · intro a ha
    obtain ⟨st, hst, hb, _⟩ := unigram_state_at_bounds
      (fun c : Int => (c : ℝ) ^ (3 / 4 : ℝ)) T mb hsorted hne hpos hids a ha
    refine ⟨st, hst, hb.i_lt, hb.word_freq_eq, fun haT hcmp => ?_⟩
    exact (unigram_step_bounds (fun c : Int => (c : ℝ) ^ (3 / 4 : ℝ)) T mb._word_freq
      hsorted hne hpos a haT st hb).1 hcmp
  · obtain ⟨st, hst, hb, hl⟩ := unigram_state_at_bounds
      (fun c : Int => (c : ℝ) ^ (3 / 4 : ℝ)) T mb hsorted hne hpos hids T (le_refl _)
    refine ⟨{ _local_keys := mb._local_keys, _word_freq := st.word_freq,
              _wordids := mb._wordids ++ mb._word_freq.map Prod.fst, _table := st.table },
      ?_, hb.word_freq_eq, hl, hb.mem_keys, hb.ascending,
      fun i j k hij hjk hk heq => ascending_runs st.table hb.ascending i j k hij hjk hk heq⟩
    rw [gen_unigram_table_eq_state_at, hst]
    rfl

/-- C13 applied to the FrequencyTable `{1:100, 2:10, 3:1}` with 10 slots. -/
theorem unigram_table_in_bounds_witness :
    ((([(1, 100), (2, 10), (3, 1)] : List (w2v_key_t × Int)).map Prod.fst).Pairwise
        (fun x y => x < y) ∧
      ∀ p ∈ ([(1, 100), (2, 10), (3, 1)] : List (w2v_key_t × Int)), 0 < p.2) ∧
    ∃ mb1, MiniBatch.gen_unigram_table (fun c : Int => (c : ℝ) ^ (3 / 4 : ℝ)) 10
        ⟨[], [(1, 100), (2, 10), (3, 1)], [], []⟩ = some mb1 ∧
      mb1._word_freq = [(1, 100), (2, 10), (3, 1)] ∧ mb1._table.length = 10 ∧
      (∀ x ∈ mb1._table, x ∈ [1, 2, 3]) ∧ mb1._table.Pairwise (fun x y => x ≤ y) := by
  obtain ⟨_, mb1, h1, h2, h3, h4, h5, _⟩ := unigram_table_in_bounds 10
    ⟨[], [(1, 100), (2, 10), (3, 1)], [], []⟩ (by decide) (by decide) (by decide) rfl
  exact ⟨⟨by decide, by decide⟩, mb1, h1, h2, h3, h4, h5⟩

/-! ### The concurrent gatherer -/

/-- Membership in the `std::set` after an insertion. -/
theorem mem_lr_set_insert (k item : key_t) (s : List key_t) :
    k ∈ Lr.set_insert item s ↔ k = item ∨ k ∈ s := by
  induction s with
  | nil => simp [Lr.set_insert]
  | cons x xs ih =>
    simp only [Lr.set_insert]
    split_ifs with h1 h2
    · subst h1
      simp
    · simp
    · rw [List.mem_cons, ih, List.mem_cons]
      tauto

/-- An insertion keeps the `std::set` strictly ascending. -/
theorem sorted_lr_set_insert (item : key_t) (s : List key_t)
    (hs : s.Pairwise (fun x y => x < y)) :
    (Lr.set_insert item s).Pairwise (fun x y => x < y) := by
  induction s with
  | nil => simp [Lr.set_insert]
  | cons x xs ih =>
    rw [List.pairwise_cons] at hs
    simp only [Lr.set_insert]
    split_ifs with h1 h2
    · exact List.pairwise_cons.mpr hs
    · refine List.pairwise_cons.mpr ⟨?_, List.pairwise_cons.mpr hs⟩
      intro y hy
      rcases List.mem_cons.mp hy with h | h
      · rw [h]
        exact h2
      · exact Nat.lt_trans h2 (hs.1 y h)
    · refine List.pairwise_cons.mpr ⟨?_, ih hs.2⟩
      intro y hy
      rcases (mem_lr_set_insert y item xs).mp hy with h | h
      · rw [h]
        exact Nat.lt_of_le_of_ne (Nat.le_of_not_lt h2) (fun e => h1 e.symm)
      · exact hs.1 y h

/-- The `std::set` after a sequence of insertions: ascending, holding the keys inserted and
those it held before. -/
theorem foldl_lr_set_insert (items : List key_t) (s : List key_t)
    (hs : s.Pairwise (fun x y => x < y)) :
    (∀ k, k ∈ items.foldl (fun t item => Lr.set_insert item t) s ↔ k ∈ items ∨ k ∈ s) ∧
    (items.foldl (fun t item => Lr.set_insert item t) s).Pairwise (fun x y => x < y) := by
  induction items generalizing s with
  | nil => simp [hs]
  | cons x xs ih =>
    obtain ⟨h1, h2⟩ := ih (Lr.set_insert x s) (sorted_lr_set_insert x s hs)
    refine ⟨fun k => ?_, h2⟩
    rw [List.foldl_cons, h1, mem_lr_set_insert, List.mem_cons]
    tauto

/-- The `std::set` built from an empty set depends only on which keys are inserted, not on
their order or multiplicity. -/
theorem lr_set_order_independent (items1 items2 : List key_t)
    (hsame : ∀ k, k ∈ items1 ↔ k ∈ items2) :
    items1.foldl (fun t item => Lr.set_insert item t) []
      = items2.foldl (fun t item => Lr.set_insert item t) [] := by
  obtain ⟨hm1, hs1⟩ := foldl_lr_set_insert items1 [] List.Pairwise.nil
  obtain ⟨hm2, hs2⟩ := foldl_lr_set_insert items2 [] List.Pairwise.nil
  have hnd1 := hs1.imp (fun h => Nat.ne_of_lt h)
  have hnd2 := hs2.imp (fun h => Nat.ne_of_lt h)
  have hperm := (List.perm_ext_iff_of_nodup hnd1 hnd2).mpr (fun k => by
    rw [hm1, hm2, hsame])
  exact List.eq_of_perm_of_sorted hperm hs1 hs2

/-- The set that the single-threaded gatherer of the linear model builds is the set of the
keys it inserts. -/
theorem lr_gather_handler_keys {R : Type} (value : R) (minibatch : Int)
    (file : List (Line R)) (ins : Lr.Instance R) (keys : List key_t) (line_count : Int) :
    (LR.gather_handler value minibatch file ins (keys, line_count)).1.1
      = (LR.gather_inserted value minibatch file ins line_count).foldl
          (fun t item => Lr.set_insert item t) keys := by
  have hfold : ∀ (feas : List (key_t × R)) (t : List key_t),
      feas.foldl (fun s item => Lr.set_insert item.1 s) t
        = (feas.map Prod.fst).foldl (fun t item => Lr.set_insert item t) t := by
    intro feas
    induction feas with
    | nil => intro t; rfl
    | cons x xs ih => intro t; simp only [List.foldl_cons, List.map_cons, ih]
  induction file generalizing ins keys line_count with
  | nil => rfl
  | cons line rest ih =>
    rw [LR.gather_handler, LR.gather_inserted]
    by_cases hstop : minibatch > 0 ∧ line_count + 1 > minibatch
    · simp only [if_pos hstop, hfold]
    · simp only [if_neg hstop, List.foldl_append, ih, hfold]

/-- Order independence of the `std::set` of the linear model: whatever batches of keys are
inserted one after the other and in whatever order, as long as they are the keys that the
single-threaded scan inserts, `_local_keys` is the one of the single-threaded scan. The
statement `std::lock_guard<SpinLock> lk(SpinLock);` of lr.cpp 165 names the type and takes
no lock, so the code does not order the insertions of several tasks one after the other:
this lemma is about sequential insertions only. -/
theorem lr_set_batches_order_independent {R : Type} (value : R) (minibatch : Int)
    (file : List (Line R)) (ins : Lr.Instance R) (batches : List (List key_t))
    (hsame : ∀ k, k ∈ batches.flatten
      ↔ k ∈ LR.gather_inserted value minibatch file ins 0) :
    batches.foldl (fun s batch => batch.foldl (fun t item => Lr.set_insert item t) s) []
      = (LR.gather_keys value file ins minibatch).1.1 := by
  have hflat : ∀ (bs : List (List key_t)) (s : List key_t),
      bs.foldl (fun s batch => batch.foldl (fun t item => Lr.set_insert item t) s) s
        = bs.flatten.foldl (fun t item => Lr.set_insert item t) s := by
    intro bs
    induction bs with
    | nil => intro s; rfl
    | cons b bs ih =>
      intro s
      rw [List.foldl_cons, ih, List.flatten_cons, List.foldl_append]
  unfold LR.gather_keys
  rw [hflat, lr_gather_handler_keys]
  exact lr_set_order_independent _ _ hsame

end SwiftMPI
